import Mathlib

/-!
# mivinci/cli: command resolution and flag parsing

A shallow embedding of `value.go`, `command.go` and `context.go`.

* A Go `string` is a list of bytes; a byte is written as a `Char`, so tokens read as text.
* A `*Flag` is a `Flag` record stored in the context; two lookups that return the same
  pointer in Go return the same list position here, so a `Set` through the short index is
  seen through the long index. Every `Flag` owns its `Value` (the constructors `String`,
  `Int`, `Bool` and `IP` allocate a fresh one).
* A `*Command` together with its chain of `parent` pointers is a `Node`; the tree is the
  one `Add` builds, where the parent of a child is the command it was added to.
* Go `error` results and panics are values of `Error`: `Error.panic` is an index or slice
  out of range, `Error.nilValue` a method call on a nil `Value`, `Error.redefined` and
  `Error.shortUsed` are the two explicit panics of `Context.add`.
* The loop of `Context.parse` is bounded by the number of tokens (`parse_fuel`).
* A `Run` handler is named, not executed: `Command.ExecContext` reports which one it calls.
* `Command.Help` only writes to standard output; its calls are left out.
* `net.ParseIP` and `net.IP.String` are library functions outside the repository: they
  are parameters. The `strconv` functions are modelled from their documented behaviour,
  with a 64-bit `int`.
-/

namespace Cli

/-- Go `string`: a sequence of bytes. -/
abbrev Str := List Char

/-! ## Errors -/

/-- The `error` values (and panics) the package can produce. -/
inductive Error where
  /-- The sentinel `ErrHelp`. -/
  | help
  /-- Message `unexpected flag %s`. -/
  | unexpectedFlag (arg : Str)
  /-- Message `undefined flag: --%s`. -/
  | undefinedFlag (key : Str)
  /-- Message `undefined shorthand flag: -%c`. -/
  | undefinedShort (ch : Char)
  /-- Message `flag %s needs an argument`. -/
  | needsArg (key : Str)
  /-- Message `flag %c needs an argument`. -/
  | needsArgShort (ch : Char)
  /-- Error `strconv.ErrSyntax` from `strconv.Atoi` or `strconv.ParseBool` -/
  | syntaxErr (fn : Str) (s : Str)
  /-- Error `strconv.ErrRange` from `strconv.Atoi` -/
  | rangeErr (s : Str)
  /-- Message `invalid IP address: %s`. -/
  | invalidIP (s : Str)
  /-- Message `flag %s redefined` (panic in `Context.add`) -/
  | redefined (name : Str)
  /-- Message `short flag %c is used by flag %s` (panic in `Context.add`) -/
  | shortUsed (short : Char) (name : Str)
  /-- A run-time panic: index or slice out of range -/
  | panic
  /-- A run-time panic: method call on a nil `Value` (nil pointer dereference) -/
  | nilValue
  /-- Call of `os.Exit(2)` after printing the error (`ExitOnError`) -/
  | exit (e : Error)
  /-- Not a Go result: the loop model ran out of fuel (never produced, see `parse_fuel`) -/
  | fuel
  deriving DecidableEq, Repr

/-! ## Checked byte and slice operations -/

/-- Go `s[i]`: panics when `i` is out of range. -/
def byteAt (s : Str) (i : Nat) : Option Char := s.get? i

/-- Go `s[i:]`: panics when `i > len(s)`. -/
def sliceFrom {α : Type} (s : List α) (i : Nat) : Option (List α) :=
  if i ≤ s.length then some (s.drop i) else none

/-- Go `s[:i]`: panics when `i > len(s)`. -/
def sliceTo {α : Type} (s : List α) (i : Nat) : Option (List α) :=
  if i ≤ s.length then some (s.take i) else none

/-- Go `strings.IndexByte`: index of the first `c` in `s`, or `-1`. -/
def IndexByte : Str → Char → Int
  | [], _ => -1
  | b :: s, c => if b = c then 0 else
      let i := IndexByte s c
      if i > -1 then i + 1 else -1

/-! ## strconv -/

/-- Width of Go `int` (64-bit platform). -/
def intSize : Nat := 64

/-- Value of a decimal digit byte, if it is one. -/
def digitVal (c : Char) : Option Nat :=
  if 48 ≤ c.toNat ∧ c.toNat ≤ 57 then some (c.toNat - 48) else none

/-- Value of a run of decimal digits (accumulator first), `none` on a non-digit. -/
def parseDigits : Nat → Str → Option Nat
  | acc, [] => some acc
  | acc, c :: cs =>
    match digitVal c with
    | some d => parseDigits (acc * 10 + d) cs
    | none => none

/-- Go `strconv.Atoi`: optional sign, decimal digits, clamped to the `int` range. -/
def Atoi (s : Str) : Int × Option Error :=
  let neg := s.head? = some '-'
  let body := if s.head? = some '-' ∨ s.head? = some '+' then s.tail else s
  if body = [] then (0, some (.syntaxErr "Atoi".toList s)) else
  match parseDigits 0 body with
  | none => (0, some (.syntaxErr "Atoi".toList s))
  | some n =>
    if neg then
      if n > 2 ^ (intSize - 1) then (-(2 ^ (intSize - 1) : Int), some (.rangeErr s))
      else (-(n : Int), none)
    else
      if n ≥ 2 ^ (intSize - 1) then ((2 ^ (intSize - 1) : Int) - 1, some (.rangeErr s))
      else ((n : Int), none)

/-- Decimal digits of a natural number, most significant first (fuel first). -/
def natDigits : Nat → Nat → Str
  | 0, _ => []
  | fuel + 1, n =>
    if n < 10 then [Char.ofNat (48 + n)]
    else natDigits fuel (n / 10) ++ [Char.ofNat (48 + n % 10)]

/-- Go `strconv.Itoa`. -/
def Itoa (i : Int) : Str :=
  if i < 0 then '-' :: natDigits (i.natAbs + 1) i.natAbs else natDigits (i.natAbs + 1) i.natAbs

/-- Go `strconv.ParseBool`. -/
def ParseBool (s : Str) : Bool × Option Error :=
  if s = ['1'] ∨ s = ['t'] ∨ s = ['T'] ∨ s = ['t', 'r', 'u', 'e']
      ∨ s = ['T', 'R', 'U', 'E'] ∨ s = ['T', 'r', 'u', 'e'] then (true, none)
  else if s = ['0'] ∨ s = ['f'] ∨ s = ['F'] ∨ s = ['f', 'a', 'l', 's', 'e']
      ∨ s = ['F', 'A', 'L', 'S', 'E'] ∨ s = ['F', 'a', 'l', 's', 'e'] then (false, none)
  else (false, some (.syntaxErr "ParseBool".toList s))

/-- Go `strconv.FormatBool`. -/
def FormatBool (b : Bool) : Str :=
  if b then ['t', 'r', 'u', 'e'] else ['f', 'a', 'l', 's', 'e']

/-! ## value.go -/

/-- The four implementations of the `Value` interface. `net.IP` is a byte slice, `[]` is
the nil address. -/
inductive Value where
  | stringValue (s : Str)
  | intValue (i : Int)
  | boolValue (b : Bool)
  | ipValue (ip : List Nat)
  deriving DecidableEq, Repr

section
variable (ParseIP : Str → List Nat)

/-- The method `Set` of each variant: the new state and the returned error. The integer
and boolean variants store the parsed result even when parsing failed. -/
def Value.Set : Value → Str → Value × Option Error
  | .stringValue _, s => (.stringValue s, none)
  | .intValue _, s => (.intValue (Atoi s).1, (Atoi s).2)
  | .boolValue _, s => (.boolValue (ParseBool s).1, (ParseBool s).2)
  | .ipValue old, s =>
    if ParseIP s ≠ [] then (.ipValue (ParseIP s), none)
    else (.ipValue old, some (.invalidIP s))

end

/-- The method `Type` of each variant. -/
def Value.Type : Value → Str
  | .stringValue _ => "string".toList
  | .intValue _ => "int".toList
  | .boolValue _ => "bool".toList
  | .ipValue _ => "IP".toList

section
variable (FormatIP : List Nat → Str)

/-- The method `String` of each variant; `net.IP.String` is a library function outside the
repository and a parameter. -/
def Value.String : Value → Str
  | .stringValue s => s
  | .intValue i => Itoa i
  | .boolValue b => FormatBool b
  | .ipValue ip => FormatIP ip

end

/-! ## command.go: data -/

/-- An `Options` bit: tolerate undefined flags. -/
def UndefinedFlags : Nat := 1

/-- An `Options` bit: print the error and exit with status 2. -/
def ExitOnError : Nat := 2

/-- Go `Options.enabled`: `o&opts != 0`. -/
def Options.enabled (o opts : Nat) : Bool := o &&& opts != 0

/-- Go `Flag`. `Short = 0` is "no short form", `Value = none` the nil interface. -/
structure Flag where
  Name : Str
  Usage : Str := []
  Short : Char := Char.ofNat 0
  Value : Option Value
  Persist : Bool := false
  optional : Bool := false
  deriving DecidableEq, Repr

/-- Go `Command` without its help texts. `Run` names the handler (`none` is nil); the
`parent` pointer is kept in `Node`. -/
structure Command where
  Name : Str
  Args : List Str := []
  Flags : List Flag := []
  Options : Nat := 0
  Run : Option Nat := none
  children : List Command := []
  setup : Bool := false

/-- A `*Command` with the chain of its `parent` pointers, nearest first; the chain is
empty exactly when `parent == nil`. -/
structure Node where
  cmd : Command
  parents : List Command := []

/-- The children of a command of the tree, each with its parent chain (`Add` sets
`parent` to the command it is added to). -/
def Node.children (n : Node) : List Node :=
  n.cmd.children.map fun ch => { cmd := ch, parents := n.cmd :: n.parents }

/-- Go `defaultFlagHelp`. -/
def defaultFlagHelp : Flag :=
  { Name := "help".toList, Short := 'h', Usage := "show help message".toList,
    Value := some (.boolValue false) }

/-! ## context.go: the context and its indexes -/

/-- Go `Context`. `flags` holds the registered `*Flag`s in registration order; `lset` and
`sset` are the two indexes over it. -/
structure Context where
  cmd : Node
  args : List Str := []
  flags : List Flag := []

/-- The flag registered in `lset` under `key`: `add` files a flag under its `Name`. -/
def hasName (key : Str) (f : Flag) : Bool := f.Name = key

/-- The flag registered in `sset` under `ch`: `add` files a flag under its `Short`, and
only when that is not zero. -/
def hasShort (ch : Char) (f : Flag) : Bool := f.Short ≠ Char.ofNat 0 ∧ f.Short = ch

/-- Go `c.lset[key]`. -/
def Context.lset (c : Context) (key : Str) : Option Flag :=
  c.flags.find? (hasName key)

/-- Go `c.sset[ch]`. -/
def Context.sset (c : Context) (ch : Char) : Option Flag :=
  c.flags.find? (hasShort ch)

/-- Write through a `*Flag`: rewrite the first flag that satisfies `p`. -/
def modifyFirst (p : Flag → Bool) (g : Flag → Flag) : List Flag → List Flag
  | [] => []
  | f :: fs => if p f then g f :: fs else f :: modifyFirst p g fs

/-- The first statement of `Context.add`: a non-nil boolean `Value` sets `optional`. -/
def markOptional (flag : Flag) : Flag :=
  match flag.Value with
  | some value => if value.Type = "bool".toList then { flag with optional := true } else flag
  | none => flag

/-- Go `Context.add`. -/
def Context.add (c : Context) (flag : Flag) : Except Error Context :=
  let flag : Flag := markOptional flag
  match c.lset flag.Name with
  | some _ => .error (.redefined flag.Name)
  | none =>
    if flag.Short = Char.ofNat 0 then .ok { c with flags := c.flags ++ [flag] }
    else
      match c.sset flag.Short with
      | some used => .error (.shortUsed flag.Short used.Name)
      | none => .ok { c with flags := c.flags ++ [flag] }

/-- The inner loop of `newContext` over `p.Flags`; `isRoot` is `p.parent == nil`. -/
def addFlags (isRoot : Bool) : Context → List Flag → Except Error Context
  | c, [] => .ok c
  | c, flag :: flags =>
    if isRoot || flag.Persist then
      match c.add flag with
      | .ok c1 => addFlags isRoot c1 flags
      | .error e => .error e
    else addFlags isRoot c flags

/-- The outer loop of `newContext`: `for p := cmd; p != nil; p = p.parent`. -/
def walkParents : Context → List Command → Except Error Context
  | c, [] => .ok c
  | c, p :: ps =>
    match addFlags ps.isEmpty c p.Flags with
    | .ok c1 => walkParents c1 ps
    | .error e => .error e

/-- Go `newContext`. -/
def newContext (cmd : Node) : Except Error Context :=
  walkParents { cmd := cmd } (cmd.cmd :: cmd.parents)

/-! ## context.go: the tokenizer -/

/-- Go `a || b`, where evaluating an operand may panic (`none`). -/
def goOr (a b : Option Bool) : Option Bool :=
  match a with
  | none => none
  | some true => some true
  | some false => b

/-- Go `a && b`, where evaluating an operand may panic (`none`). -/
def goAnd (a b : Option Bool) : Option Bool :=
  match a with
  | none => none
  | some false => some false
  | some true => b

/-- Go `stripUndefinedFlagValue`; `none` is a panic. The Go `nil` result is `[]`. -/
def stripUndefinedFlagValue (args : List Str) : Option (List Str) :=
  if args.length = 0 then some args
  else
    match args.get? 0 with
    | none => none
    | some next =>
      match goAnd (some (decide (next.length > 0))) ((byteAt next 0).map fun b => b == '-') with
      | none => none
      | some true => some args
      | some false => if args.length > 1 then sliceFrom args 1 else some []

/-- What `parseLongArgs` and `parseShortArgs` leave behind: the context (flags are
written in place), the returned `[]string` and the returned `error`. -/
structure Step where
  ctx : Context
  args : List Str
  err : Option Error

section
variable (ParseIP : Str → List Nat)

/-- The call `flag.Value.Set(value)` for a `flag` found in an index by the test `p`: the write goes
to the flag the index points to. A nil `Value` panics. -/
def Context.set (c : Context) (p : Flag → Bool) (flag : Flag) (value : Str) :
    Context × Option Error :=
  match flag.Value with
  | none => (c, some .nilValue)
  | some v =>
    ({ c with
        flags := modifyFirst p (fun f => { f with Value := some (v.Set ParseIP value).1 }) c.flags },
      (v.Set ParseIP value).2)

/-- Go `Context.parseLongArgs`. -/
def parseLongArgs (c : Context) (arg : Str) (args : List Str) : Step :=
  match sliceFrom arg 2 with
  | none => ⟨c, [], some .panic⟩
  | some name =>
    match goOr (goOr (some (name.length == 0)) ((byteAt name 0).map fun b => b == '-'))
        ((byteAt name 0).map fun b => b == '=') with
    | none => ⟨c, [], some .panic⟩
    | some true => ⟨c, [], some (.unexpectedFlag arg)⟩
    | some false =>
      let i := IndexByte name '='
      match (if i > -1 then sliceTo name i.toNat else some name) with
      | none => ⟨c, [], some .panic⟩
      | some key =>
        match c.lset key with
        | none =>
          if key = "help".toList then ⟨c, args, some .help⟩
          else if Options.enabled c.cmd.cmd.Options UndefinedFlags then
            match stripUndefinedFlagValue args with
            | some rest => ⟨c, rest, none⟩
            | none => ⟨c, [], some .panic⟩
          else ⟨c, [], some (.undefinedFlag key)⟩
        | some flag =>
          if key = "help".toList then ⟨c, args, some .help⟩
          else if i > -1 then
            -- --key=value
            match sliceFrom name i.toNat with
            | none => ⟨c, [], some .panic⟩
            | some value =>
              ⟨(c.set ParseIP (hasName key) flag value).1, args,
                (c.set ParseIP (hasName key) flag value).2⟩
          else if flag.optional then
            -- --key
            ⟨(c.set ParseIP (hasName key) flag "true".toList).1, args,
              (c.set ParseIP (hasName key) flag "true".toList).2⟩
          else
            match args with
            | value :: rest =>
              -- --key value
              ⟨(c.set ParseIP (hasName key) flag value).1, rest,
                (c.set ParseIP (hasName key) flag value).2⟩
            | [] => ⟨c, [], some (.needsArg key)⟩

/-- The loop of `Context.parseShortArgs` over `keys`; each round takes `ch := keys[0]`
and continues with `keys[1:]`. -/
def parseShortLoop : Str → Context → List Str → Step
  | [], c, args => ⟨c, args, none⟩
  | ch :: keys, c, args =>
    match c.sset ch with
    | none =>
      if ch = 'h' then ⟨c, [], some .help⟩
      else if Options.enabled c.cmd.cmd.Options UndefinedFlags then
        match stripUndefinedFlagValue args with
        | some rest => ⟨c, rest, none⟩
        | none => ⟨c, [], some .panic⟩
      else ⟨c, [], some (.undefinedShort ch)⟩
    | some flag =>
      if ch = 'h' then ⟨c, [], some .help⟩
      else
        match goAnd (some (decide (keys.length > 2))) ((byteAt keys 1).map fun b => b == '=') with
        | none => ⟨c, [], some .panic⟩
        | some true =>
          -- -k=value
          match sliceFrom keys 2 with
          | none => ⟨c, [], some .panic⟩
          | some value =>
            match (c.set ParseIP (hasShort ch) flag value).2 with
            | some e => ⟨(c.set ParseIP (hasShort ch) flag value).1, [], some e⟩
            | none => parseShortLoop keys (c.set ParseIP (hasShort ch) flag value).1 args
        | some false =>
          if flag.optional then
            -- -k
            match (c.set ParseIP (hasShort ch) flag "true".toList).2 with
            | some e => ⟨(c.set ParseIP (hasShort ch) flag "true".toList).1, [], some e⟩
            | none => parseShortLoop keys (c.set ParseIP (hasShort ch) flag "true".toList).1 args
          else if keys.length > 1 then
            -- -kvalue
            match sliceFrom keys 1 with
            | none => ⟨c, [], some .panic⟩
            | some value =>
              match (c.set ParseIP (hasShort ch) flag value).2 with
              | some e => ⟨(c.set ParseIP (hasShort ch) flag value).1, [], some e⟩
              | none => parseShortLoop keys (c.set ParseIP (hasShort ch) flag value).1 args
          else
            match args with
            | value :: rest =>
              -- -k value
              match (c.set ParseIP (hasShort ch) flag value).2 with
              | some e => ⟨(c.set ParseIP (hasShort ch) flag value).1, [], some e⟩
              | none => parseShortLoop keys (c.set ParseIP (hasShort ch) flag value).1 rest
            | [] => ⟨c, [], some (.needsArgShort ch)⟩

/-- Go `Context.parseShortArgs`. -/
def parseShortArgs (c : Context) (arg : Str) (args : List Str) : Step :=
  match sliceFrom arg 1 with
  | none => ⟨c, [], some .panic⟩
  | some keys => parseShortLoop ParseIP keys c args

/-- The loop of `Context.parse`; the first argument bounds the number of rounds. -/
def parseLoop : Nat → Context → List Str → Context × Option Error
  | _, c, [] => (c, none)
  | 0, c, _ :: _ => (c, some .fuel)
  | n + 1, c, arg :: args =>
    match goOr (goOr (some (arg.length == 0)) (some (arg.length == 1)))
        ((byteAt arg 0).map fun b => b != '-') with
    | none => (c, some .panic)
    | some true => parseLoop n { c with args := c.args ++ [arg] } args
    | some false =>
      match byteAt arg 1 with
      | none => (c, some .panic)
      | some b =>
        if b = '-' then
          if arg.length = 2 then
            -- the two dashes end the flags
            ({ c with args := c.args ++ args }, none)
          else
            match (parseLongArgs ParseIP c arg args).err with
            | some e => ((parseLongArgs ParseIP c arg args).ctx, some e)
            | none =>
              parseLoop n (parseLongArgs ParseIP c arg args).ctx (parseLongArgs ParseIP c arg args).args
        else
          match (parseShortArgs ParseIP c arg args).err with
          | some e => ((parseShortArgs ParseIP c arg args).ctx, some e)
          | none =>
            parseLoop n (parseShortArgs ParseIP c arg args).ctx
              (parseShortArgs ParseIP c arg args).args

/-- Go `Context.parse`: one round per token at most. -/
def Context.parse (c : Context) (args : List Str) : Context × Option Error :=
  parseLoop ParseIP args.length { c with args := [] } args

/-- Go `Context.Parse`: with `ExitOnError` a returned error ends the process. -/
def Context.Parse (c : Context) (args : List Str) : Context × Option Error :=
  match c.parse ParseIP args with
  | (c1, some e) =>
    if e = .panic ∨ e = .nilValue then (c1, some e)
    else if Options.enabled c.cmd.cmd.Options ExitOnError then (c1, some (.exit e))
    else (c1, some e)
  | (c1, none) => (c1, none)

end

/-! ## context.go: typed getters -/

/-- Go `Context.Int`. -/
def Context.Int (c : Context) (key : Str) : Int :=
  match c.lset key with
  | none => 0
  | some flag =>
    match flag.Value with
    | some (.intValue iv) => iv
    | _ => 0

/-- Go `Context.Bool`. -/
def Context.Bool (c : Context) (key : Str) : Bool :=
  match c.lset key with
  | none => false
  | some flag =>
    match flag.Value with
    | some (.boolValue bv) => bv
    | _ => false

/-- Go `Context.IP`; the nil address is `[]`. -/
def Context.IP (c : Context) (key : Str) : List Nat :=
  match c.lset key with
  | none => []
  | some flag =>
    match flag.Value with
    | some (.ipValue ip) => ip
    | _ => []

/-- Go `Context.String`: the text `String()` renders, whatever the variant; `none` is the
panic of a method call on a nil `Value`. -/
def Context.String (FormatIP : List Nat → Str) (c : Context) (key : Str) : Option Str :=
  match c.lset key with
  | none => some []
  | some flag =>
    match flag.Value with
    | some v => some (v.String FormatIP)
    | none => none

/-- Go `Context.Get` followed by reading the `Value` field: the value held by the flag
registered under `name`. -/
def Context.held (c : Context) (name : Str) : Option Value :=
  (c.lset name).bind fun flag => flag.Value

/-! ## command.go: resolution and execution -/

/-- What `find` returns: `(*Command, []string, error)`; a panic is the error `panic`. -/
structure Found where
  cmd : Node
  args : List Str
  err : Option Error

/-- The loop of `find`. `children` is `root.children`, each child with the parent chain
its `parent` pointer gives; `flags` is the residual list built so far. -/
def findLoop : List Str → Node → List Node → List Str → Found
  | [], root, _, flags => ⟨root, flags, none⟩
  | arg :: args, root, children, flags =>
    if arg = "--".toList then
      -- the two dashes end the arguments
      ⟨root, flags, none⟩
    else
      match byteAt arg 0 with
      | none => ⟨root, [], some .panic⟩
      | some b =>
        if b = '-' then
          -- we met a flag
          findLoop args root children (flags ++ [arg])
        else
          match children.find? fun cmd => arg = cmd.cmd.Name with
          | some cmd => findLoop args cmd cmd.children flags
          | none => findLoop args root children (flags ++ [arg])

/-- Go `find`. -/
def find (root : Node) (children : List Node) (args : List Str) : Found :=
  if args.length = 0 then ⟨root, args, none⟩
  else findLoop args root children []

/-- The `dummy` command of `Find`: a zero `Command` whose only child is `c`. -/
def dummy (c : Command) : Command :=
  { Name := [], children := [c] }

/-- Go `Command.Find`: `c` keeps its own parent chain below the dummy. -/
def Command.Find (c : Node) (args : List Str) : Found :=
  find { cmd := dummy c.cmd } [c] args

/-- Go `c.Root()`. -/
def Node.Root (c : Node) : Command :=
  (c.cmd :: c.parents).getLast (List.cons_ne_nil _ _)

/-- What `ExecContext` did: the context it parsed into (if it got that far), the handler
it invoked (if any) and the error it returned before invoking a handler. -/
structure Exec where
  cmd : Option Node
  ctx : Option Context
  ran : Option Nat
  err : Option Error

section
variable (ParseIP : Str → List Nat)

/-- Go `Command.ExecContext`, up to the call of the `Run` handler. -/
def Command.ExecContext (c : Node) (args : List Str) : Exec :=
  let root : Command := c.Root
  let root : Command :=
    if root.setup then root
    else { root with Flags := root.Flags ++ [defaultFlagHelp], setup := true }
  match args with
  | [] => ⟨none, none, none, some .panic⟩
  | _ :: rest =>
    -- always make the first argument match the root command
    let found := Command.Find { cmd := root } (root.Name :: rest)
    match found.err with
    | some e => ⟨some found.cmd, none, none, some e⟩
    | none =>
      match newContext found.cmd with
      | .error e => ⟨some found.cmd, none, none, some e⟩
      | .ok cctx =>
        match cctx.Parse ParseIP found.args with
        | (c1, some e) =>
          if e = .help then ⟨some found.cmd, some c1, none, none⟩
          else ⟨some found.cmd, some c1, none, some e⟩
        | (c1, none) => ⟨some found.cmd, some c1, found.cmd.cmd.Run, none⟩

end

/-! ## Specification vocabulary -/

/-- The flags `newContext` hands to `add`, in order: for each command of the chain, all
its flags when it is the last of the chain (`parent == nil`), else its persistent ones. -/
def selectedFlags : List Command → List Flag
  | [] => []
  | p :: ps => p.Flags.filter (fun flag => ps.isEmpty || flag.Persist) ++ selectedFlags ps

/-- Write `true` through `sset[ch]`: what `Set("true")` does to a boolean flag. -/
def Context.setTrue (c : Context) (ch : Char) : Context :=
  { c with
    flags := modifyFirst (hasShort ch) (fun f => { f with Value := some (.boolValue true) }) c.flags }

/-- A non-nil `Value` of the boolean variant. -/
def holdsBool : Option Value → Bool
  | some (.boolValue _) => true
  | _ => false

/-- The context declares a boolean flag with a non-nil `Value` under the long name `name`
and the short character `short`: both indexes hold the same flag, and `add` has set its
`optional` marker. -/
def declaresBool (c : Context) (name : Str) (short : Char) : Bool :=
  match c.lset name, c.sset short with
  | some f, some g => decide (f = g) && f.optional && holdsBool f.Value
  | _, _ => false

/-- A long name that `--name` can spell: not empty, not starting with `-` or `=`,
without `=`, and not `help`. -/
def usableKey (name : Str) : Bool :=
  name ≠ [] ∧ name.head? ≠ some '-' ∧ name.head? ≠ some '=' ∧ '=' ∉ name ∧ name ≠ "help".toList

/-- What a run of the tokenizer leaves for the flag `key`: the value it holds, the
positional arguments and the returned error. -/
def observe (key : Str) (r : Context × Option Error) : Option Value × List Str × Option Error :=
  (r.1.held key, r.1.args, r.2)

/-- Every flag of the list is the one both indexes return for its name and, when it has
one, for its short character: no flag shadows another. -/
def Indexed (l : List Flag) : Prop :=
  ∀ g ∈ l, l.find? (hasName g.Name) = some g
    ∧ (g.Short ≠ Char.ofNat 0 → l.find? (hasShort g.Short) = some g)

/-- The names (and the non-zero short characters) of the flags already registered and of
the flags still to register are pairwise distinct. -/
def Distinct (l S : List Flag) : Prop :=
  ((l ++ S).map fun f => f.Name).Nodup
    ∧ (((l ++ S).filter fun f => f.Short ≠ Char.ofNat 0).map fun f => f.Short).Nodup

/-- The test at the head of the loop of `parse`: a token of length 0 or 1, or one that
does not start with `-`, is a positional argument. -/
def isPositional (t : Str) : Bool :=
  t.length = 0 || t.length = 1 || t.head? ≠ some '-'

/-- The list is empty or its first token starts with `-`. -/
def dashFirst (extra : List Str) : Prop :=
  ∀ t ∈ extra.head?, t.head? = some '-'

/-- The context declares a flag that takes a value under the long name `key` and the
short character `k`: both indexes hold the same flag `f`, and `add` has not set its
`optional` marker (it does so for boolean flags only). -/
def declaresPlain (c : Context) (key : Str) (k : Char) (f : Flag) : Prop :=
  c.lset key = some f ∧ c.sset k = some f ∧ f.optional = false

/-- The tokens that precede the first `--`. -/
def beforeDashes (args : List Str) : List Str :=
  args.takeWhile fun t => t ≠ "--".toList

/-- The reference resolver of the specification, a single pass from left to right: a token
that does not start with `-` and equals the `Name` of a direct child of the cursor moves
the cursor to the first such child and is removed; every other token is kept. -/
def resolveRef : List Str → Node → List Node → Node × List Str
  | [], cursor, _ => (cursor, [])
  | t :: ts, cursor, children =>
    if t.head? = some '-' then
      ((resolveRef ts cursor children).1, t :: (resolveRef ts cursor children).2)
    else
      match children.find? fun k => t = k.cmd.Name with
      | some k => resolveRef ts k k.children
      | none => ((resolveRef ts cursor children).1, t :: (resolveRef ts cursor children).2)

/-- The reference resolver started above the root `c`, on the tokens before the first
`--`. -/
def FindRef (c : Node) (args : List Str) : Node × List Str :=
  resolveRef (beforeDashes args) { cmd := dummy c.cmd } [c]

/-- The commands below `c` in the tree: `c` itself and the children of those. -/
inductive Reach (c : Node) : Node → Prop where
  | root : Reach c c
  | child (n k : Node) : Reach c n → k ∈ n.children → Reach c k

/-- The root `ExecContext` works on: the built-in `help` flag is appended to the root once. -/
def withHelp (root : Command) : Command :=
  if root.setup then root
  else { root with Flags := root.Flags ++ [defaultFlagHelp], setup := true }

/-- What `parseLongArgs` decides from the token alone, before it looks at the tokens that
follow. -/
inductive LongPlan where
  /-- Return the error, with no tokens. -/
  | fail (e : Error)
  /-- Return `ErrHelp`, with the tokens that follow. -/
  | help
  /-- Tolerate the undefined flag: `stripUndefinedFlagValue`. -/
  | skip
  /-- Call `Set` with a value found in the token (inline, or `true`). -/
  | setHere (key : Str) (flag : Flag) (value : Str)
  /-- Call `Set` with the next token, or fail when there is none. -/
  | setNext (key : Str) (flag : Flag)

/-- The decision of `parseLongArgs` for the token `arg`. -/
def longPlan (c : Context) (arg : Str) : LongPlan :=
  match sliceFrom arg 2 with
  | none => .fail .panic
  | some name =>
    match goOr (goOr (some (name.length == 0)) ((byteAt name 0).map fun b => b == '-'))
        ((byteAt name 0).map fun b => b == '=') with
    | none => .fail .panic
    | some true => .fail (.unexpectedFlag arg)
    | some false =>
      match (if IndexByte name '=' > -1 then sliceTo name (IndexByte name '=').toNat
          else some name) with
      | none => .fail .panic
      | some key =>
        match c.lset key with
        | none =>
          if key = "help".toList then .help
          else if Options.enabled c.cmd.cmd.Options UndefinedFlags then .skip
          else .fail (.undefinedFlag key)
        | some flag =>
          if key = "help".toList then .help
          else if IndexByte name '=' > -1 then
            match sliceFrom name (IndexByte name '=').toNat with
            | none => .fail .panic
            | some value => .setHere key flag value
          else if flag.optional then .setHere key flag "true".toList
          else .setNext key flag

/-- Carrying out the decision of `parseLongArgs` on the tokens that follow. -/
def runLong (ParseIP : Str → List Nat) (c : Context) (plan : LongPlan) (args : List Str) :
    Step :=
  match plan with
  | .fail e => ⟨c, [], some e⟩
  | .help => ⟨c, args, some .help⟩
  | .skip =>
    match stripUndefinedFlagValue args with
    | some rest => ⟨c, rest, none⟩
    | none => ⟨c, [], some .panic⟩
  | .setHere key flag value =>
    ⟨(c.set ParseIP (hasName key) flag value).1, args,
      (c.set ParseIP (hasName key) flag value).2⟩
  | .setNext key flag =>
    match args with
    | value :: rest =>
      ⟨(c.set ParseIP (hasName key) flag value).1, rest,
        (c.set ParseIP (hasName key) flag value).2⟩
    | [] => ⟨c, [], some (.needsArg key)⟩

/-- What one round of the loop of `parseShortArgs` decides from the token alone. -/
inductive ShortPlan where
  /-- Return the error, with no tokens. -/
  | fail (e : Error)
  /-- Tolerate the undefined flag: `stripUndefinedFlagValue`, and leave the loop. -/
  | skip
  /-- Call `Set` with a value found in the token (or `true`) and go on. -/
  | setHere (flag : Flag) (value : Str)
  /-- Call `Set` with the next token and go on, or fail when there is none. -/
  | setNext (flag : Flag)

/-- The decision of one round of the loop of `parseShortArgs`, for the character `ch`
followed by `keys`. -/
def shortPlan (c : Context) (ch : Char) (keys : Str) : ShortPlan :=
  match c.sset ch with
  | none =>
    if ch = 'h' then .fail .help
    else if Options.enabled c.cmd.cmd.Options UndefinedFlags then .skip
    else .fail (.undefinedShort ch)
  | some flag =>
    if ch = 'h' then .fail .help
    else
      match goAnd (some (decide (keys.length > 2))) ((byteAt keys 1).map fun b => b == '=') with
      | none => .fail .panic
      | some true =>
        match sliceFrom keys 2 with
        | none => .fail .panic
        | some value => .setHere flag value
      | some false =>
        if flag.optional then .setHere flag "true".toList
        else if keys.length > 1 then
          match sliceFrom keys 1 with
          | none => .fail .panic
          | some value => .setHere flag value
        else .setNext flag

/-- The loop of `parse` continued from the context `c` on the tokens `args`, one round per
token at most. -/
def parseFrom (ParseIP : Str → List Nat) (c : Context) (args : List Str) :
    Context × Option Error :=
  parseLoop ParseIP args.length c args

/-- The context after a write through `lset[key]`: the flag registered under `key` holds
the value `v`. -/
def Context.store (c : Context) (key : Str) (v : Value) : Context :=
  { c with flags := modifyFirst (hasName key) (fun f => { f with Value := some v }) c.flags }

/-! ## Example trees and contexts -/

/-- A stand-in for `net.ParseIP` that rejects every text; the examples hold no IP flag
that is ever set. -/
def noIP : Str → List Nat := fun _ => []

/-- A string flag `key`/`k`, empty by default. -/
def keyFlag : Flag := { Name := "key".toList, Short := 'k', Value := some (.stringValue []) }

/-- An integer flag `num`/`n` with default 7. -/
def numFlag : Flag := { Name := "num".toList, Short := 'n', Value := some (.intValue 7) }

/-- The context of a root `app` that declares `keyFlag` and `numFlag`. -/
def keyContext : Context :=
  { cmd := { cmd := { Name := "app".toList, Flags := [keyFlag, numFlag], children := [] } },
    flags := [keyFlag, numFlag] }

/-- The same context for a command with `UndefinedFlags` enabled. -/
def tolerantKeyContext : Context :=
  { cmd := { cmd := { Name := "app".toList, Flags := [keyFlag, numFlag], children := [],
                      Options := UndefinedFlags } },
    flags := [keyFlag, numFlag] }

/-- A boolean flag whose long name and short character are both the dash, as `add`
registers it. -/
def dashFlag : Flag :=
  { Name := ['-'], Short := '-', Value := some (.boolValue false), optional := true }

/-- The context of a root `app` that declares `dashFlag`. -/
def dashContext : Context :=
  { cmd := { cmd := { Name := "app".toList, Flags := [dashFlag], children := [] } },
    flags := [dashFlag] }

/-- Root `app` with boolean flags `a`, `b`, `c` (shorts `a`, `b`, `c`). -/
def boolApp : Command :=
  { Name := "app".toList, children := [],
    Flags := [
      { Name := "a".toList, Short := 'a', Value := some (.boolValue false) },
      { Name := "b".toList, Short := 'b', Value := some (.boolValue false) },
      { Name := "c".toList, Short := 'c', Value := some (.boolValue false) }] }

/-- The context of `boolApp`, each flag as `add` registers it. -/
def boolContext : Context := { cmd := { cmd := boolApp }, flags := boolApp.Flags.map markOptional }

/-- Root `app` with a boolean flag `verbose`/`v` and a child `sync`. -/
def syncApp : Command :=
  { Name := "app".toList,
    Flags := [{ Name := "verbose".toList, Short := 'v', Value := some (.boolValue false) }],
    children := [{ Name := "sync".toList, children := [] }] }

/-- The root `syncApp` with `UndefinedFlags` enabled. -/
def tolerantApp : Command :=
  { Name := "app".toList, Options := UndefinedFlags,
    Flags := [{ Name := "verbose".toList, Short := 'v', Value := some (.boolValue false) }],
    children := [{ Name := "sync".toList, children := [] }] }

/-- The command `download` of `example/subcommand/main.go`: one flag `thread`/`t`,
not persistent. -/
def download : Command :=
  { Name := "download".toList, children := [],
    Flags := [{ Name := "thread".toList, Short := 't', Value := some (.intValue 2) }] }

/-- The root of `example/subcommand/main.go` with its children `upload` and `download`. -/
def exampleRoot : Command :=
  { Name := "example".toList,
    Flags := [
      { Name := "address".toList,
        Value := some (.ipValue [0, 0, 0, 0, 0, 0, 0, 0, 0, 0, 255, 255, 127, 0, 0, 1]) },
      { Name := "hash".toList, Value := some (.intValue 53748191) },
      { Name := "verbose".toList, Value := some (.boolValue false) }],
    children := [{ Name := "upload".toList, children := [] }, download] }

/-- The command `download` as a command of the tree: its parent is the root. -/
def downloadNode : Node := { cmd := download, parents := [exampleRoot] }

/-- A flag of the root of a three-level tree, not persistent. -/
def regionFlag : Flag := { Name := "region".toList, Short := 'r', Value := some (.stringValue []) }

/-- A persistent flag of the middle command. -/
def tokenFlag : Flag :=
  { Name := "token".toList, Value := some (.stringValue []), Persist := true }

/-- A flag of the middle command, not persistent. -/
def dryFlag : Flag := { Name := "dry".toList, Short := 'd', Value := some (.boolValue false) }

/-- The leaf `run` of the three-level tree. -/
def runCmd : Command := { Name := "run".toList, children := [] }

/-- The middle command `deploy`, parent of `run`. -/
def deployCmd : Command :=
  { Name := "deploy".toList, Flags := [tokenFlag, dryFlag], children := [runCmd] }

/-- The root `cloud`, parent of `deploy`. -/
def cloudCmd : Command :=
  { Name := "cloud".toList, Flags := [regionFlag], children := [deployCmd] }

/-- The command `run` as a command of the tree: its parents are `deploy` and `cloud`. -/
def runNode : Node := { cmd := runCmd, parents := [deployCmd, cloudCmd] }

/-- The context `newContext` builds for `run`. -/
def runContext : Context := { cmd := runNode, flags := [tokenFlag, regionFlag] }

/-- Root `app` with an integer flag `count` (default 0) and a child `sync`, which has the
children `kids`. -/
def countApp (kids : List Command) : Command :=
  { Name := "app".toList,
    Flags := [{ Name := "count".toList, Value := some (.intValue 0) }],
    children := [{ Name := "sync".toList, children := kids }] }

/-- Root `app` with `ExitOnError` enabled and no flag of its own. -/
def strictApp : Command :=
  { Name := "app".toList, Options := ExitOnError, children := [] }

/-- Root `app` that declares two flags named `x`. -/
def clashApp : Command :=
  { Name := "app".toList, children := [],
    Flags := [{ Name := "x".toList, Value := some (.stringValue []) },
              { Name := "x".toList, Value := some (.intValue 0) }] }

/-- The context `newContext` builds for the root `syncApp` once the `help` flag is
injected. -/
def syncContext : Context :=
  { cmd := { cmd := withHelp syncApp },
    flags := [{ Name := "verbose".toList, Short := 'v', Value := some (.boolValue false),
                optional := true },
              { defaultFlagHelp with optional := true }] }

/-- A stand-in for `net.IP.String` that renders every address as the empty text; the
examples render no IP flag. -/
def noFormat : List Nat → Str := fun _ => []

/-- The context of a root `app` that declares a flag `raw` with a nil `Value`. -/
def nilContext : Context :=
  { cmd := { cmd := { Name := "app".toList, Flags := [{ Name := "raw".toList, Value := none }],
                      children := [] } },
    flags := [{ Name := "raw".toList, Value := none }] }

/-- A string flag whose long name and short character are both the dash. -/
def dashKeyFlag : Flag := { Name := ['-'], Short := '-', Value := some (.stringValue []) }

/-- The context of a root `app` that declares `dashKeyFlag`. -/
def dashKeyContext : Context :=
  { cmd := { cmd := { Name := "app".toList, Flags := [dashKeyFlag], children := [] } },
    flags := [dashKeyFlag] }

/-- A root whose name starts with a dash. -/
def dashRoot : Command := { Name := "-app".toList, children := [] }

/-- The child `sync` of `countApp kids` as a command of the tree `ExecContext` works on:
its parent is the root with the `help` flag injected. -/
def syncNode (kids : List Command) : Node :=
  { cmd := { Name := "sync".toList, children := kids }, parents := [withHelp (countApp kids)] }

/-- The context `newContext` builds for `syncNode kids`: the flags of the root. -/
def countContext (kids : List Command) : Context :=
  { cmd := syncNode kids,
    flags := [{ Name := "count".toList, Value := some (.intValue 0) },
              { defaultFlagHelp with optional := true }] }

/-! ## Lemmas -/

/-- The marking in `add` does not touch the name of the flag it marks. -/
theorem markOptional_Name (f : Flag) : (markOptional f).Name = f.Name := by
  unfold markOptional
  split
  · split <;> rfl
  · rfl

/-- The marking in `add` does not touch the short character of the flag it marks. -/
theorem markOptional_Short (f : Flag) : (markOptional f).Short = f.Short := by
  unfold markOptional
  split
  · split <;> rfl
  · rfl

/-- A successful `add` appends the marked flag and nothing else. -/
theorem add_flags (c c1 : Context) (f : Flag) (h : c.add f = .ok c1) :
    c1.flags = c.flags ++ [markOptional f] ∧ c1.cmd = c.cmd ∧ c1.args = c.args := by
  unfold Context.add at h
  simp only at h
  split at h
  · cases h
  · split at h
    · cases h; exact ⟨rfl, rfl, rfl⟩
    · split at h
      · cases h
      · cases h; exact ⟨rfl, rfl, rfl⟩

/-- The inner loop of `newContext` registers the selected flags of one command. -/
theorem addFlags_flags (isRoot : Bool) (fs : List Flag) :
    ∀ (c c1 : Context), addFlags isRoot c fs = .ok c1 →
      c1.flags = c.flags ++ (fs.filter fun flag => isRoot || flag.Persist).map markOptional := by
  induction fs with
  | nil => intro c c1 h; simp [addFlags] at h; simp [h]
  | cons f fs ih =>
    intro c c1 h
    unfold addFlags at h
    by_cases hsel : (isRoot || f.Persist) = true
    · rw [if_pos hsel] at h
      cases hadd : c.add f with
      | error e => rw [hadd] at h; cases h
      | ok c2 =>
        rw [hadd] at h
        have h2 := ih c2 c1 h
        rw [h2, (add_flags c c2 f hadd).1]
        simp [List.filter_cons, hsel]
    · rw [if_neg hsel] at h
      rw [ih c c1 h]
      simp [List.filter_cons, hsel]

/-- The outer loop of `newContext` registers the selected flags of the chain. -/
theorem walkParents_flags (ps : List Command) :
    ∀ (c c1 : Context), walkParents c ps = .ok c1 →
      c1.flags = c.flags ++ (selectedFlags ps).map markOptional := by
  induction ps with
  | nil => intro c c1 h; simp [walkParents] at h; simp [h, selectedFlags]
  | cons p ps ih =>
    intro c c1 h
    unfold walkParents at h
    cases hadd : addFlags ps.isEmpty c p.Flags with
    | error e => rw [hadd] at h; cases h
    | ok c2 =>
      rw [hadd] at h
      rw [ih c2 c1 h, addFlags_flags _ _ c c2 hadd, selectedFlags]
      simp

/-- The flags of the context `newContext` builds. -/
theorem newContext_flags (n : Node) (ctx : Context) (h : newContext n = .ok ctx) :
    ctx.flags = (selectedFlags (n.cmd :: n.parents)).map markOptional := by
  have := walkParents_flags _ _ _ h
  simpa using this

/-- Commands that have a parent contribute their persistent flags only. -/
theorem selectedFlags_append (xs : List Command) (y : Command) (ys : List Command) :
    selectedFlags (xs ++ y :: ys)
      = (xs.flatMap fun p => p.Flags.filter fun flag => flag.Persist) ++ selectedFlags (y :: ys) := by
  induction xs with
  | nil => simp
  | cons x xs ih =>
    have hne : (xs ++ y :: ys).isEmpty = false := by cases xs <;> rfl
    rw [List.cons_append, selectedFlags, ih, hne]
    simp

/-- The selected flags are a sublist of the flags declared along the chain. -/
theorem selectedFlags_sublist (ps : List Command) :
    List.Sublist (selectedFlags ps) (ps.flatMap fun p => p.Flags) := by
  induction ps with
  | nil => simp [selectedFlags]
  | cons p ps ih =>
    rw [selectedFlags, List.flatMap_cons]
    exact List.Sublist.append (List.filter_sublist _) ih

/-- Every selected flag is declared on a command of the chain. -/
theorem selectedFlags_subset (ps : List Command) (g : Flag) (hg : g ∈ selectedFlags ps) :
    g ∈ ps.flatMap fun p => p.Flags := by
  induction ps with
  | nil => simp [selectedFlags] at hg
  | cons p ps ih =>
    rw [selectedFlags, List.mem_append] at hg
    rw [List.flatMap_cons, List.mem_append]
    rcases hg with hg | hg
    · exact Or.inl (List.mem_of_mem_filter hg)
    · exact Or.inr (ih hg)

/-- Looking a name up among marked flags whose names are pairwise distinct. -/
theorem find_marked (S : List Flag) (f : Flag)
    (hinj : ∀ g ∈ S, g.Name = f.Name → g = f) :
    (f ∈ S → (S.map markOptional).find? (hasName f.Name) = some (markOptional f))
    ∧ (f ∉ S → (S.map markOptional).find? (hasName f.Name) = none) := by
  induction S with
  | nil => simp
  | cons g S ih =>
    have ih2 := ih (fun g hg hn => hinj g (List.mem_cons_of_mem _ hg) hn)
    by_cases hn : g.Name = f.Name
    · have hgf : g = f := hinj g (List.mem_cons_self _ _) hn
      subst hgf
      simp [List.find?_cons, hasName, markOptional_Name]
    · constructor
      · intro hmem
        have hmem2 : f ∈ S := by
          rcases List.mem_cons.1 hmem with h | h
          · exact absurd (by rw [h]) hn
          · exact h
        simp [List.find?_cons, hasName, markOptional_Name, hn, ih2.1 hmem2]
      · intro hmem
        have hmem2 : f ∉ S := fun h => hmem (List.mem_cons_of_mem _ h)
        simp [List.find?_cons, hasName, markOptional_Name, hn, ih2.2 hmem2]

/-- Function `IndexByte` answers `-1` for a byte that does not occur. -/
theorem IndexByte_of_not_mem (s : Str) (ch : Char) (h : ch ∉ s) : IndexByte s ch = -1 := by
  induction s with
  | nil => rfl
  | cons b s ih =>
    have hb : b ≠ ch := fun e => h (by rw [e]; exact List.mem_cons_self _ _)
    have hs : ch ∉ s := fun e => h (List.mem_cons_of_mem _ e)
    simp [IndexByte, hb, ih hs]

/-- The flag written through one index is the flag another index returns. -/
theorem modifyFirst_congr (p q : Flag → Bool) (g : Flag → Flag) (f : Flag) :
    ∀ l : List Flag, l.find? p = some f → l.find? q = some f →
      modifyFirst p g l = modifyFirst q g l := by
  intro l
  induction l with
  | nil => intro h; simp at h
  | cons x xs ih =>
    intro hp hq
    have hpf : p f = true := List.find?_some hp
    have hqf : q f = true := List.find?_some hq
    by_cases hpx : p x = true
    · have hxf : x = f := by simpa [List.find?_cons, hpx] using hp
      have hqx : q x = true := by rw [hxf]; exact hqf
      simp [modifyFirst, hpx, hqx]
    · have hqx : ¬ q x = true := by
        intro hqx
        have hxf : x = f := by simpa [List.find?_cons, hqx] using hq
        exact hpx (by rw [hxf]; exact hpf)
      have hp2 : xs.find? p = some f := by simpa [List.find?_cons, hpx] using hp
      have hq2 : xs.find? q = some f := by simpa [List.find?_cons, hqx] using hq
      simp [modifyFirst, hpx, hqx, ih hp2 hq2]

/-- Two indexes that pointed to one flag still point to one flag after a write through a
third index: either the old flag or the rewritten one. -/
theorem find_modifyFirst_agree (p q1 q2 : Flag → Bool) (g : Flag → Flag) (f : Flag)
    (h1 : ∀ x, q1 (g x) = q1 x) (h2 : ∀ x, q2 (g x) = q2 x) :
    ∀ l : List Flag, l.find? q1 = some f → l.find? q2 = some f →
      ((modifyFirst p g l).find? q1 = some f ∧ (modifyFirst p g l).find? q2 = some f)
      ∨ ((modifyFirst p g l).find? q1 = some (g f) ∧ (modifyFirst p g l).find? q2 = some (g f)) := by
  intro l
  induction l with
  | nil => intro h; simp at h
  | cons x xs ih =>
    intro hq1 hq2
    have hf1 : q1 f = true := List.find?_some hq1
    have hf2 : q2 f = true := List.find?_some hq2
    by_cases hx1 : q1 x = true
    · have hxf : x = f := by simpa [List.find?_cons, hx1] using hq1
      subst hxf
      by_cases hpx : p x = true
      · right; simp [modifyFirst, hpx, List.find?_cons, h1, h2, hf1, hf2]
      · left; simp [modifyFirst, hpx, List.find?_cons, hf1, hf2]
    · have hx2 : ¬ q2 x = true := by
        intro hx2
        have hxf : x = f := by simpa [List.find?_cons, hx2] using hq2
        exact hx1 (by rw [hxf]; exact hf1)
      have hq1' : xs.find? q1 = some f := by simpa [List.find?_cons, hx1] using hq1
      have hq2' : xs.find? q2 = some f := by simpa [List.find?_cons, hx2] using hq2
      by_cases hpx : p x = true
      · left; simp [modifyFirst, hpx, List.find?_cons, h1, h2, hx1, hx2, hq1', hq2']
      · rcases ih hq1' hq2' with h | h
        · left; simp [modifyFirst, hpx, List.find?_cons, hx1, hx2, h.1, h.2]
        · right; simp [modifyFirst, hpx, List.find?_cons, hx1, hx2, h.1, h.2]

/-- A write through an index is seen through every index that points to the same flag. -/
theorem find_modifyFirst_same (p q : Flag → Bool) (g : Flag → Flag) (f : Flag)
    (hq : ∀ x, q (g x) = q x) :
    ∀ l : List Flag, l.find? p = some f → l.find? q = some f →
      (modifyFirst p g l).find? q = some (g f) := by
  intro l
  induction l with
  | nil => intro h; simp at h
  | cons x xs ih =>
    intro hp hq'
    have hpf : p f = true := List.find?_some hp
    have hqf : q f = true := List.find?_some hq'
    by_cases hpx : p x = true
    · have hxf : x = f := by simpa [List.find?_cons, hpx] using hp
      subst hxf
      simp [modifyFirst, hpx, List.find?_cons, hq, hqf]
    · have hqx : ¬ q x = true := by
        intro hqx
        have hxf : x = f := by simpa [List.find?_cons, hqx] using hq'
        exact hpx (by rw [hxf]; exact hpf)
      have hp2 : xs.find? p = some f := by simpa [List.find?_cons, hpx] using hp
      have hq2 : xs.find? q = some f := by simpa [List.find?_cons, hqx] using hq'
      simp [modifyFirst, hpx, List.find?_cons, hqx, ih hp2 hq2]

/-- What `declaresBool` says, spelled out. -/
theorem declaresBool_iff (c : Context) (name : Str) (short : Char) :
    declaresBool c name short = true ↔
      ∃ f v, c.lset name = some f ∧ c.sset short = some f ∧ f.optional = true
        ∧ f.Value = some (.boolValue v) := by
  unfold declaresBool
  constructor
  · intro h
    split at h
    · rename_i f g hl hs
      simp only [Bool.and_eq_true, decide_eq_true_eq] at h
      obtain ⟨⟨hfg, hopt⟩, hb⟩ := h
      subst hfg
      unfold holdsBool at hb
      split at hb
      · rename_i v hv
        exact ⟨f, v, hl, hs, hopt, hv⟩
      · cases hb
    · cases h
  · rintro ⟨f, v, hl, hs, hopt, hv⟩
    simp [hl, hs, hopt, hv, holdsBool]

/-- The call `Set("true")` on a boolean flag found through the short index. -/
theorem set_true (ParseIP : Str → List Nat) (c : Context) (ch : Char) (f : Flag) (v : Bool)
    (hv : f.Value = some (.boolValue v)) :
    c.set ParseIP (hasShort ch) f "true".toList = (c.setTrue ch, none) := by
  have hp : ParseBool ['t', 'r', 'u', 'e'] = (true, none) := by decide
  simp [Context.set, hv, Value.Set, hp, Context.setTrue]

/-- Writing a value does not move a flag in the long index. -/
theorem hasName_setTrue (key : Str) (x : Flag) :
    hasName key { x with Value := some (.boolValue true) } = hasName key x := rfl

/-- Writing a value does not move a flag in the short index. -/
theorem hasShort_setTrue (ch : Char) (x : Flag) :
    hasShort ch { x with Value := some (.boolValue true) } = hasShort ch x := rfl

/-- One round of the short loop on a boolean flag: write `true`, keep the tokens. -/
theorem parseShortLoop_bool (ParseIP : Str → List Nat) (c : Context) (ch : Char) (keys : Str)
    (args : List Str) (f : Flag) (v : Bool) (hs : c.sset ch = some f)
    (hopt : f.optional = true) (hv : f.Value = some (.boolValue v)) (hh : ch ≠ 'h')
    (hk : keys.length ≤ 2) :
    parseShortLoop ParseIP (ch :: keys) c args = parseShortLoop ParseIP keys (c.setTrue ch) args := by
  have hlen : decide (keys.length > 2) = false := by simp; omega
  rw [parseShortLoop]
  simp only [hs, hh, if_false, hlen, goAnd, hopt, if_true, set_true ParseIP c ch f v hv]

/-- Setting one boolean flag leaves every boolean flag declared. -/
theorem declaresBool_setTrue (c : Context) (name : Str) (short ch : Char)
    (h : declaresBool c name short = true) : declaresBool (c.setTrue ch) name short = true := by
  obtain ⟨f, v, hl, hs, hopt, hv⟩ := (declaresBool_iff c name short).1 h
  rw [declaresBool_iff]
  rcases find_modifyFirst_agree (hasShort ch) (hasName name) (hasShort short)
      (fun f => { f with Value := some (.boolValue true) }) f (hasName_setTrue name)
      (hasShort_setTrue short) c.flags hl hs with h1 | h1
  · exact ⟨f, v, h1.1, h1.2, hopt, hv⟩
  · exact ⟨_, true, h1.1, h1.2, hopt, rfl⟩

/-- After the write through the short index, `Bool` reads `true` under the long name. -/
theorem Bool_setTrue (c : Context) (name : Str) (short : Char)
    (h : declaresBool c name short = true) : (c.setTrue short).Bool name = true := by
  obtain ⟨f, v, hl, hs, -, -⟩ := (declaresBool_iff c name short).1 h
  have := find_modifyFirst_same (hasShort short) (hasName name)
      (fun f => { f with Value := some (.boolValue true) }) f (hasName_setTrue name) c.flags hs hl
  simp [Context.Bool, Context.lset, Context.setTrue, this]

/-- A flag that reads `true` still reads `true` after another flag is set. -/
theorem Bool_setTrue_keep (c : Context) (name : Str) (ch : Char)
    (h : c.Bool name = true) : (c.setTrue ch).Bool name = true := by
  unfold Context.Bool at h
  split at h
  · cases h
  · rename_i f hl
    split at h
    · rename_i bv hv
      subst h
      rcases find_modifyFirst_agree (hasShort ch) (hasName name) (hasName name)
          (fun f => { f with Value := some (.boolValue true) }) f (hasName_setTrue name)
          (hasName_setTrue name) c.flags hl hl with h1 | h1
      · simp [Context.Bool, Context.lset, Context.setTrue, h1.1, hv]
      · simp [Context.Bool, Context.lset, Context.setTrue, h1.1]
    · cases h

/-- The call `Set("true")` on a boolean flag found through any index. -/
theorem set_true_through (ParseIP : Str → List Nat) (c : Context) (p : Flag → Bool) (f : Flag)
    (v : Bool) (hv : f.Value = some (.boolValue v)) :
    c.set ParseIP p f "true".toList
      = ({ c with
            flags := modifyFirst p (fun f => { f with Value := some (.boolValue true) }) c.flags },
          none) := by
  have hp : ParseBool ['t', 'r', 'u', 'e'] = (true, none) := by decide
  simp [Context.set, hv, Value.Set, hp]

/-- The long form of a boolean flag in `parseLongArgs`: write `true`, keep the tokens. -/
theorem parseLongArgs_bool (ParseIP : Str → List Nat) (c : Context) (name : Str) (short : Char)
    (rest : List Str) (h : declaresBool c name short = true) (hkey : usableKey name = true) :
    parseLongArgs ParseIP c ('-' :: '-' :: name) rest = ⟨c.setTrue short, rest, none⟩ := by
  obtain ⟨f, v, hl, hs, hopt, hv⟩ := (declaresBool_iff c name short).1 h
  simp only [usableKey, Bool.and_eq_true, decide_eq_true_eq, Bool.decide_and] at hkey
  obtain ⟨hne, hd, he, hmem, hhelp⟩ := hkey
  cases name with
  | nil => exact absurd rfl hne
  | cons b t =>
    have hb1 : b ≠ '-' := fun e => hd (by rw [e]; rfl)
    have hb2 : b ≠ '=' := fun e => he (by rw [e]; rfl)
    have hi : IndexByte (b :: t) '=' = -1 := IndexByte_of_not_mem _ _ hmem
    have hw := modifyFirst_congr (hasName (b :: t)) (hasShort short)
      (fun f => { f with Value := some (.boolValue true) }) f c.flags hl hs
    have hset := set_true_through ParseIP c (hasName (b :: t)) f v hv
    have e1 : (b == '-') = false := by simp [hb1]
    have e2 : (b == '=') = false := by simp [hb2]
    have hhelp2 : ¬ (b :: t = ['h', 'e', 'l', 'p']) := hhelp
    have hset2 : c.set ParseIP (hasName (b :: t)) f ['t', 'r', 'u', 'e'] = (c.setTrue short, none) := by
      rw [Context.setTrue, ← hw]; exact hset
    simp [parseLongArgs, sliceFrom, goOr, byteAt, e1, e2, hi, hl, hhelp2, hopt, hset2]

/-- One round of `parse` on a long-form token. -/
theorem parseLoop_long (ParseIP : Str → List Nat) (n : Nat) (c : Context) (b : Char) (t : Str)
    (rest : List Str) :
    parseLoop ParseIP (n + 1) c (('-' :: '-' :: b :: t) :: rest)
      = match (parseLongArgs ParseIP c ('-' :: '-' :: b :: t) rest).err with
        | some e => ((parseLongArgs ParseIP c ('-' :: '-' :: b :: t) rest).ctx, some e)
        | none => parseLoop ParseIP n (parseLongArgs ParseIP c ('-' :: '-' :: b :: t) rest).ctx
            (parseLongArgs ParseIP c ('-' :: '-' :: b :: t) rest).args := by
  simp [parseLoop, goOr, byteAt]

/-- One round of `parse` on a short-form token. -/
theorem parseLoop_short (ParseIP : Str → List Nat) (n : Nat) (c : Context) (b : Char) (t : Str)
    (rest : List Str) (hb : b ≠ '-') :
    parseLoop ParseIP (n + 1) c (('-' :: b :: t) :: rest)
      = match (parseShortLoop ParseIP (b :: t) c rest).err with
        | some e => ((parseShortLoop ParseIP (b :: t) c rest).ctx, some e)
        | none => parseLoop ParseIP n (parseShortLoop ParseIP (b :: t) c rest).ctx
            (parseShortLoop ParseIP (b :: t) c rest).args := by
  simp [parseLoop, goOr, byteAt, hb, parseShortArgs, sliceFrom]

/-- Function `Atoi` rejects a text that starts with `=`. -/
theorem Atoi_equals_sign (s : Str) :
    Atoi ('=' :: s) = (0, some (.syntaxErr ['A', 't', 'o', 'i'] ('=' :: s))) := by
  have h : digitVal '=' = none := by decide
  simp [Atoi, parseDigits, h]

/-- Function `Atoi` fails with a syntax or a range error only. -/
theorem Atoi_err (s : Str) : (Atoi s).2 ≠ some .fuel := by
  unfold Atoi
  simp only
  repeat' split
  all_goals simp

/-- Function `ParseBool` fails with a syntax error only. -/
theorem ParseBool_err (s : Str) : (ParseBool s).2 ≠ some .fuel := by
  unfold ParseBool
  repeat' split
  all_goals simp

/-- Function `Set` never returns the fuel marker. -/
theorem Value_Set_err (ParseIP : Str → List Nat) (v : Value) (s : Str) :
    (v.Set ParseIP s).2 ≠ some .fuel := by
  cases v with
  | stringValue _ => simp [Value.Set]
  | intValue _ => simpa [Value.Set] using Atoi_err s
  | boolValue _ => simpa [Value.Set] using ParseBool_err s
  | ipValue _ =>
    simp only [Value.Set]
    split <;> simp

/-- A write through an index never returns the fuel marker. -/
theorem Context_set_err (ParseIP : Str → List Nat) (c : Context) (p : Flag → Bool) (f : Flag)
    (s : Str) : (c.set ParseIP p f s).2 ≠ some .fuel := by
  unfold Context.set
  split
  · simp
  · exact Value_Set_err ParseIP _ s

/-- Function `stripUndefinedFlagValue` returns its argument or its tail. -/
theorem stripUndefinedFlagValue_length (args rest : List Str)
    (h : stripUndefinedFlagValue args = some rest) : rest.length ≤ args.length := by
  unfold stripUndefinedFlagValue at h
  split at h
  · cases h; exact Nat.le_refl _
  · split at h
    · cases h
    · split at h
      · cases h
      · cases h; exact Nat.le_refl _
      · split at h
        · unfold sliceFrom at h
          split at h
          · cases h; simp
          · cases h
        · cases h; simp

/-- Function `parseLongArgs` returns at most the tokens it was given, never the fuel marker. -/
theorem parseLongArgs_sound (ParseIP : Str → List Nat) (c : Context) (arg : Str)
    (args : List Str) :
    (parseLongArgs ParseIP c arg args).args.length ≤ args.length
    ∧ (parseLongArgs ParseIP c arg args).err ≠ some .fuel := by
  unfold parseLongArgs
  split
  · simp
  · split
    · simp
    · simp
    · simp only
      split
      · simp
      · split
        · split
          · simp
          · split
            · split
              · rename_i rest hrest
                exact ⟨stripUndefinedFlagValue_length _ _ hrest, by simp⟩
              · simp
            · simp
        · split
          · simp
          · split
            · split
              · simp
              · exact ⟨Nat.le_refl _, Context_set_err ParseIP _ _ _ _⟩
            · split
              · exact ⟨Nat.le_refl _, Context_set_err ParseIP _ _ _ _⟩
              · split
                · exact ⟨by simp, Context_set_err ParseIP _ _ _ _⟩
                · simp

/-- A failed write in the short loop: no tokens are returned, and the error is a Go error. -/
theorem short_set_failed (ParseIP : Str → List Nat) (c : Context) (p : Flag → Bool) (f : Flag)
    (s : Str) (e : Error) (args : List Str) (he : (c.set ParseIP p f s).2 = some e) :
    ([] : List Str).length ≤ args.length ∧ some e ≠ some Error.fuel := by
  refine ⟨Nat.zero_le _, ?_⟩
  rw [← he]
  exact Context_set_err ParseIP c p f s

/-- The short loop returns at most the tokens it was given, and never the fuel marker. -/
theorem parseShortLoop_sound (ParseIP : Str → List Nat) (keys : Str) :
    ∀ (c : Context) (args : List Str),
      (parseShortLoop ParseIP keys c args).args.length ≤ args.length
      ∧ (parseShortLoop ParseIP keys c args).err ≠ some .fuel := by
  induction keys with
  | nil => intro c args; simp [parseShortLoop]
  | cons ch keys ih =>
    intro c args
    unfold parseShortLoop
    split
    · split
      · simp
      · split
        · split
          · rename_i rest hrest
            exact ⟨stripUndefinedFlagValue_length _ _ hrest, by simp⟩
          · simp
        · simp
    · split
      · simp
      · split
        · simp
        · split
          · simp
          · split
            · rename_i e he
              exact short_set_failed ParseIP _ _ _ _ e args he
            · exact ih _ _
        · split
          · split
            · rename_i e he
              exact short_set_failed ParseIP _ _ _ _ e args he
            · exact ih _ _
          · split
            · split
              · simp
              · split
                · rename_i e he
                  exact short_set_failed ParseIP _ _ _ _ e args he
                · exact ih _ _
            · split
              · split
                · rename_i e he
                  exact short_set_failed ParseIP _ _ _ _ e _ he
                · exact ⟨Nat.le_trans (ih _ _).1 (Nat.le_succ _), (ih _ _).2⟩
              · simp

/-- Function `parseShortArgs` returns at most the tokens it was given, never the fuel marker. -/
theorem parseShortArgs_sound (ParseIP : Str → List Nat) (c : Context) (arg : Str)
    (args : List Str) :
    (parseShortArgs ParseIP c arg args).args.length ≤ args.length
    ∧ (parseShortArgs ParseIP c arg args).err ≠ some .fuel := by
  unfold parseShortArgs
  split
  · simp
  · exact parseShortLoop_sound ParseIP _ c args

/-- The loop of `parse` never runs out of rounds when it is given one round per token:
`parse` always returns a Go result. -/
theorem parse_fuel (ParseIP : Str → List Nat) (n : Nat) :
    ∀ (c : Context) (args : List Str), args.length ≤ n →
      (parseLoop ParseIP n c args).2 ≠ some .fuel := by
  induction n with
  | zero =>
    intro c args h
    cases args with
    | nil => simp [parseLoop]
    | cons a as => simp at h
  | succ n ih =>
    intro c args h
    cases args with
    | nil => simp [parseLoop]
    | cons arg args =>
      have hlen : args.length ≤ n := by simpa using h
      unfold parseLoop
      split
      · simp
      · exact ih _ _ hlen
      · split
        · simp
        · split
          · split
            · simp
            · split
              · rename_i e he
                intro h2
                cases h2
                exact (parseLongArgs_sound ParseIP _ _ _).2 he
              · exact ih _ _ (Nat.le_trans (parseLongArgs_sound ParseIP _ _ _).1 hlen)
          · split
            · rename_i e he
              intro h2
              cases h2
              exact (parseShortArgs_sound ParseIP _ _ _).2 he
            · exact ih _ _ (Nat.le_trans (parseShortArgs_sound ParseIP _ _ _).1 hlen)

/-- Tokens that do not start with `-` are recorded as positional arguments, in order, and
no flag is touched. -/
theorem parseLoop_plain (ParseIP : Str → List Nat) (n : Nat) :
    ∀ (c : Context) (args : List Str), args.length ≤ n →
      (∀ t ∈ args, t.head? ≠ some '-') →
      parseLoop ParseIP n c args = ({ c with args := c.args ++ args }, none) := by
  induction n with
  | zero =>
    intro c args h _
    cases args with
    | nil => simp [parseLoop]
    | cons a as => simp at h
  | succ n ih =>
    intro c args h hplain
    cases args with
    | nil => simp [parseLoop]
    | cons arg args =>
      have hlen : args.length ≤ n := by simpa using h
      have hrest : ∀ t ∈ args, t.head? ≠ some '-' := fun t ht => hplain t (List.mem_cons_of_mem _ ht)
      have harg : arg.head? ≠ some '-' := hplain arg (List.mem_cons_self _ _)
      have hcond : goOr (goOr (some (arg.length == 0)) (some (arg.length == 1)))
          ((byteAt arg 0).map fun b => b != '-') = some true := by
        cases arg with
        | nil => rfl
        | cons b t =>
          have hb : b ≠ '-' := fun e => harg (by rw [e]; rfl)
          cases t with
          | nil => rfl
          | cons b2 t2 => simp [goOr, byteAt, hb]
      rw [parseLoop, hcond]
      simp only
      rw [ih _ _ hlen hrest]
      simp

/-- A flag is filed under its own name. -/
theorem hasName_self (g : Flag) : hasName g.Name g = true := by simp [hasName]

/-- A flag with a short character is filed under it. -/
theorem hasShort_self (g : Flag) (h : g.Short ≠ Char.ofNat 0) : hasShort g.Short g = true := by
  simp [hasShort, h]

/-- A successful `add` keeps the indexes free of shadowing. -/
theorem add_indexed (c c1 : Context) (f : Flag) (h : c.add f = .ok c1)
    (hc : Indexed c.flags) : Indexed c1.flags := by
  have hfl := (add_flags c c1 f h).1
  unfold Context.add at h
  simp only at h
  have key : c.lset (markOptional f).Name = none
      ∧ ((markOptional f).Short ≠ Char.ofNat 0 → c.sset (markOptional f).Short = none) := by
    split at h
    · cases h
    · rename_i hl
      refine ⟨hl, ?_⟩
      split at h
      · rename_i h0
        exact fun hne => absurd h0 hne
      · split at h
        · cases h
        · rename_i hs
          exact fun _ => hs
  rw [hfl]
  intro g hg
  rcases List.mem_append.1 hg with hg | hg
  · have := hc g hg
    refine ⟨by simp [List.find?_append, this.1], fun hne => by simp [List.find?_append, this.2 hne]⟩
  · have hgm : g = markOptional f := by simpa using hg
    subst hgm
    have h1 : c.flags.find? (hasName (markOptional f).Name) = none := key.1
    refine ⟨by simp [List.find?_append, h1, List.find?_cons, hasName_self], fun hne => ?_⟩
    have h2 : c.flags.find? (hasShort (markOptional f).Short) = none := key.2 hne
    simp [List.find?_append, h2, List.find?_cons, hasShort_self _ hne]

/-- The inner loop of `newContext` keeps the indexes free of shadowing. -/
theorem addFlags_indexed (isRoot : Bool) (fs : List Flag) :
    ∀ (c c1 : Context), addFlags isRoot c fs = .ok c1 → Indexed c.flags → Indexed c1.flags := by
  induction fs with
  | nil => intro c c1 h hc; simp [addFlags] at h; rw [← h]; exact hc
  | cons f fs ih =>
    intro c c1 h hc
    unfold addFlags at h
    split at h
    · cases hadd : c.add f with
      | error e => rw [hadd] at h; cases h
      | ok c2 =>
        rw [hadd] at h
        exact ih c2 c1 h (add_indexed c c2 f hadd hc)
    · exact ih c c1 h hc

/-- The outer loop of `newContext` keeps the indexes free of shadowing. -/
theorem walkParents_indexed (ps : List Command) :
    ∀ (c c1 : Context), walkParents c ps = .ok c1 → Indexed c.flags → Indexed c1.flags := by
  induction ps with
  | nil => intro c c1 h hc; simp [walkParents] at h; rw [← h]; exact hc
  | cons p ps ih =>
    intro c c1 h hc
    unfold walkParents at h
    cases hadd : addFlags ps.isEmpty c p.Flags with
    | error e => rw [hadd] at h; cases h
    | ok c2 =>
      rw [hadd] at h
      exact ih c2 c1 h (addFlags_indexed _ _ c c2 hadd hc)

/-- In a context built by `newContext` no flag shadows another in either index. -/
theorem newContext_indexed (n : Node) (ctx : Context) (h : newContext n = .ok ctx) :
    Indexed ctx.flags :=
  walkParents_indexed _ _ _ h (fun g hg => by simp at hg)

/-- A name no registered flag has is not in the long index. -/
theorem find_hasName_none (l : List Flag) (key : Str) (h : key ∉ l.map fun f => f.Name) :
    l.find? (hasName key) = none := by
  rw [List.find?_eq_none]
  intro x hx hp
  exact h (List.mem_map.2 ⟨x, hx, by simpa [hasName] using hp⟩)

/-- A character no registered flag has as its short form is not in the short index. -/
theorem find_hasShort_none (l : List Flag) (ch : Char)
    (h : ch ∉ (l.filter fun f => f.Short ≠ Char.ofNat 0).map fun f => f.Short) :
    l.find? (hasShort ch) = none := by
  rw [List.find?_eq_none]
  intro x hx hp
  have hp2 : x.Short ≠ Char.ofNat 0 ∧ x.Short = ch := by simpa [hasShort] using hp
  exact h (List.mem_map.2 ⟨x, List.mem_filter.2 ⟨hx, by simpa using hp2.1⟩, hp2.2⟩)

/-- Function `add` succeeds on a flag whose name and short character are not taken. -/
theorem add_ok (c : Context) (f : Flag) (S : List Flag)
    (h : Distinct c.flags (markOptional f :: S)) :
    ∃ c1, c.add f = .ok c1 ∧ Distinct c1.flags S := by
  obtain ⟨hn, hs⟩ := h
  have hn1 : (markOptional f).Name ∉ c.flags.map fun f => f.Name := by
    rw [List.map_append, List.map_cons] at hn
    have := (List.nodup_append.1 hn).2.2
    intro hmem
    exact this hmem (List.mem_cons_self _ _)
  have hl : c.lset (markOptional f).Name = none := find_hasName_none _ _ hn1
  have hfl : ∀ c1, c.add f = .ok c1 → Distinct c1.flags S := by
    intro c1 h1
    rw [(add_flags c c1 f h1).1]
    constructor
    · simpa using hn
    · simpa using hs
  by_cases h0 : (markOptional f).Short = Char.ofNat 0
  · have : c.add f = .ok { c with flags := c.flags ++ [markOptional f] } := by
      simp [Context.add, hl, h0]
    exact ⟨_, this, hfl _ this⟩
  · have hs1 : (markOptional f).Short ∉
        (c.flags.filter fun f => f.Short ≠ Char.ofNat 0).map fun f => f.Short := by
      rw [List.filter_append, List.map_append, List.filter_cons] at hs
      simp only [ne_eq, h0, not_false_eq_true, decide_True, if_true, List.map_cons] at hs
      have := (List.nodup_append.1 hs).2.2
      intro hmem
      exact this hmem (List.mem_cons_self _ _)
    have hsn : c.sset (markOptional f).Short = none := find_hasShort_none _ _ hs1
    have : c.add f = .ok { c with flags := c.flags ++ [markOptional f] } := by
      simp [Context.add, hl, h0, hsn]
    exact ⟨_, this, hfl _ this⟩

/-- The inner loop of `newContext` succeeds on flags with fresh names and characters. -/
theorem addFlags_ok (isRoot : Bool) (fs : List Flag) :
    ∀ (c : Context) (S : List Flag),
      Distinct c.flags ((fs.filter fun flag => isRoot || flag.Persist).map markOptional ++ S) →
      ∃ c1, addFlags isRoot c fs = .ok c1 ∧ Distinct c1.flags S := by
  induction fs with
  | nil => intro c S h; exact ⟨c, rfl, by simpa using h⟩
  | cons f fs ih =>
    intro c S h
    unfold addFlags
    by_cases hsel : (isRoot || f.Persist) = true
    · rw [if_pos hsel]
      have e : (f :: fs).filter (fun flag => isRoot || flag.Persist)
          = f :: fs.filter (fun flag => isRoot || flag.Persist) := by
        simp [List.filter_cons, hsel]
      rw [e, List.map_cons, List.cons_append] at h
      obtain ⟨c2, hadd, hd⟩ := add_ok c f _ h
      rw [hadd]
      exact ih c2 S hd
    · rw [if_neg hsel]
      have e : (f :: fs).filter (fun flag => isRoot || flag.Persist)
          = fs.filter (fun flag => isRoot || flag.Persist) := by
        simp [List.filter_cons, hsel]
      rw [e] at h
      exact ih c S h

/-- The outer loop of `newContext` succeeds on flags with fresh names and characters. -/
theorem walkParents_ok (ps : List Command) :
    ∀ (c : Context), Distinct c.flags ((selectedFlags ps).map markOptional) →
      ∃ c1, walkParents c ps = .ok c1 := by
  induction ps with
  | nil => intro c _; exact ⟨c, rfl⟩
  | cons p ps ih =>
    intro c h
    unfold walkParents
    rw [selectedFlags, List.map_append] at h
    obtain ⟨c2, hadd, hd⟩ := addFlags_ok ps.isEmpty p.Flags c _ h
    rw [hadd]
    exact ih c2 hd

/-- Function `newContext` builds a context whenever the flags it registers have pairwise distinct
names and pairwise distinct non-zero short characters. -/
theorem newContext_ok (n : Node)
    (hn : ((selectedFlags (n.cmd :: n.parents)).map fun f => f.Name).Nodup)
    (hs : (((selectedFlags (n.cmd :: n.parents)).filter fun f => f.Short ≠ Char.ofNat 0).map
      fun f => f.Short).Nodup) :
    ∃ ctx, newContext n = .ok ctx := by
  apply walkParents_ok
  constructor
  · simpa [Function.comp_def, markOptional_Name] using hn
  · simpa [List.filter_map, Function.comp_def, markOptional_Short] using hs

/-- In the context `newContext` builds, a flag declared on a command A of the parent chain
(the command itself included) is registered exactly when A is the last of the chain or the
flag is persistent; otherwise its name is not in the index at all. Flag names are pairwise
distinct along the chain. -/
theorem newContext_chain_flag (n : Node) (ctx : Context) (hctx : newContext n = .ok ctx)
    (hnames : (((n.cmd :: n.parents).flatMap fun p => p.Flags).map fun f => f.Name).Nodup)
    (front post : List Command) (A : Command)
    (hchain : n.cmd :: n.parents = front ++ A :: post)
    (f : Flag) (hf : f ∈ A.Flags) :
    (ctx.lset f.Name = some (markOptional f) ↔ (post = [] ∨ f.Persist = true))
    ∧ (ctx.lset f.Name = none ↔ ¬ (post = [] ∨ f.Persist = true))
    ∧ (f.Short ≠ Char.ofNat 0 →
        (ctx.sset f.Short = some (markOptional f) ↔ (post = [] ∨ f.Persist = true))) := by
  have hflags := newContext_flags n ctx hctx
  have hidx := newContext_indexed n ctx hctx
  rw [hchain] at hnames hflags
  -- the flags of the chain, split around `A`
  have hall : (front ++ A :: post).flatMap (fun p => p.Flags)
      = ((front.flatMap fun p => p.Flags) ++ A.Flags) ++ post.flatMap fun p => p.Flags := by
    simp [List.flatMap_append]
  have hnd : ((front ++ A :: post).flatMap fun p => p.Flags).Nodup := hnames.of_map _
  have hinj : ∀ g ∈ (front ++ A :: post).flatMap (fun p => p.Flags),
      g.Name = f.Name → g = f := by
    intro g hg hn
    have hfm : f ∈ (front ++ A :: post).flatMap (fun p => p.Flags) := by
      rw [hall]; exact List.mem_append_left _ (List.mem_append_right _ hf)
    exact List.inj_on_of_nodup_map hnames hg hfm hn
  rw [hall] at hnd
  have hfront : f ∉ front.flatMap fun p => p.Flags := by
    intro h
    exact (List.nodup_append.1 (List.nodup_append.1 hnd).1).2.2 h hf
  have hpost : f ∉ post.flatMap fun p => p.Flags := by
    intro h
    exact (List.nodup_append.1 hnd).2.2 (List.mem_append_right _ hf) h
  -- membership in the selection
  have hsel : f ∈ selectedFlags (front ++ A :: post) ↔ (post = [] ∨ f.Persist = true) := by
    rw [selectedFlags_append, selectedFlags, List.mem_append, List.mem_append]
    constructor
    · rintro (h | h | h)
      · exact absurd (by
          rcases List.mem_flatMap.1 h with ⟨p, hp, hfp⟩
          exact List.mem_flatMap.2 ⟨p, hp, List.mem_of_mem_filter hfp⟩) hfront
      · have := (List.mem_filter.1 h).2
        simpa [List.isEmpty_iff] using this
      · exact absurd (selectedFlags_subset _ _ h) hpost
    · intro h
      refine Or.inr (Or.inl (List.mem_filter.2 ⟨hf, ?_⟩))
      simpa [List.isEmpty_iff] using h
  have hfind := find_marked (selectedFlags (front ++ A :: post)) f
    (fun g hg hn => hinj g (selectedFlags_subset _ _ hg) hn)
  have hshort : f.Short ≠ Char.ofNat 0 →
      (ctx.sset f.Short = some (markOptional f) ↔ (post = [] ∨ f.Persist = true)) := by
    intro hne
    constructor
    · intro h
      have hm : markOptional f ∈ ctx.flags := List.mem_of_find?_eq_some h
      rw [hflags] at hm
      obtain ⟨g0, hg0, hgm⟩ := List.mem_map.1 hm
      have hn : g0.Name = f.Name := by
        have := congrArg Flag.Name hgm
        simpa [markOptional_Name] using this
      have hgf := hinj g0 (selectedFlags_subset _ _ hg0) hn
      rw [hgf] at hg0
      exact hsel.1 hg0
    · intro hc
      have hm : markOptional f ∈ ctx.flags := by
        rw [hflags]; exact List.mem_map_of_mem _ (hsel.2 hc)
      have := (hidx _ hm).2 (by rw [markOptional_Short]; exact hne)
      rw [markOptional_Short] at this
      exact this
  refine ⟨?_, ?_, hshort⟩
  · unfold Context.lset
    rw [hflags]
    by_cases hc : post = [] ∨ f.Persist = true
    · rw [hfind.1 (hsel.2 hc)]
      exact ⟨fun _ => hc, fun _ => rfl⟩
    · rw [hfind.2 (fun h => hc (hsel.1 h))]
      exact ⟨fun h => (by cases h), fun h => absurd h hc⟩
  · unfold Context.lset
    rw [hflags]
    by_cases hc : post = [] ∨ f.Persist = true
    · rw [hfind.1 (hsel.2 hc)]
      exact ⟨fun h => (by cases h), fun h => absurd hc h⟩
    · rw [hfind.2 (fun h => hc (hsel.1 h))]
      exact ⟨fun _ => hc, fun _ => rfl⟩

/-- A flag declared on the command itself is registered in its context exactly when the
command is the root or the flag is persistent. -/
theorem newContext_own_flag (n : Node) (ctx : Context) (hctx : newContext n = .ok ctx)
    (hnames : (((n.cmd :: n.parents).flatMap fun p => p.Flags).map fun f => f.Name).Nodup)
    (f : Flag) (hf : f ∈ n.cmd.Flags) :
    (ctx.lset f.Name = some (markOptional f) ↔ (n.parents = [] ∨ f.Persist = true))
    ∧ (ctx.lset f.Name = none ↔ ¬ (n.parents = [] ∨ f.Persist = true)) :=
  ⟨(newContext_chain_flag n ctx hctx hnames [] n.parents n.cmd rfl f hf).1,
    (newContext_chain_flag n ctx hctx hnames [] n.parents n.cmd rfl f hf).2.1⟩

/-- Function `parse` always returns a Go result: one round per token is enough. -/
theorem parse_returns (ParseIP : Str → List Nat) (c : Context) (args : List Str) :
    (c.parse ParseIP args).2 ≠ some .fuel :=
  parse_fuel ParseIP _ _ _ (Nat.le_refl _)

/-- The digit byte of a number below ten reads back as that number. -/
theorem digitVal_ofNat (k : Nat) (h : k < 10) : digitVal (Char.ofNat (48 + k)) = some k := by
  interval_cases k <;> decide

/-- Reading digits distributes over concatenation. -/
theorem parseDigits_append (l1 l2 : Str) :
    ∀ acc, parseDigits acc (l1 ++ l2) = (parseDigits acc l1).bind fun a => parseDigits a l2 := by
  induction l1 with
  | nil => intro acc; simp [parseDigits]
  | cons c cs ih =>
    intro acc
    simp only [List.cons_append, parseDigits]
    cases digitVal c with
    | none => simp
    | some d => simpa using ih (acc * 10 + d)

/-- The decimal digits of a number read back as that number. -/
theorem parseDigits_natDigits (fuel : Nat) :
    ∀ n, n < fuel → parseDigits 0 (natDigits fuel n) = some n := by
  induction fuel with
  | zero => intro n h; omega
  | succ fuel ih =>
    intro n h
    unfold natDigits
    by_cases h10 : n < 10
    · simp [h10, parseDigits, digitVal_ofNat n h10]
    · have hd : n / 10 < fuel := by omega
      have hm : n % 10 < 10 := Nat.mod_lt _ (by decide)
      simp only [h10, if_false]
      rw [parseDigits_append, ih _ hd]
      simp [parseDigits, digitVal_ofNat _ hm]
      omega

/-- Every byte of a decimal rendering is a digit. -/
theorem natDigits_digit (fuel : Nat) :
    ∀ n, ∀ c ∈ natDigits fuel n, ∃ k, k < 10 ∧ c = Char.ofNat (48 + k) := by
  induction fuel with
  | zero => intro n c hc; simp [natDigits] at hc
  | succ fuel ih =>
    intro n c hc
    unfold natDigits at hc
    by_cases h10 : n < 10
    · simp only [h10, if_true, List.mem_singleton] at hc
      exact ⟨n, h10, hc⟩
    · simp only [h10, if_false, List.mem_append, List.mem_singleton] at hc
      rcases hc with hc | hc
      · exact ih _ c hc
      · exact ⟨n % 10, Nat.mod_lt _ (by decide), hc⟩

/-- A decimal rendering is not empty. -/
theorem natDigits_ne_nil (fuel n : Nat) : natDigits (fuel + 1) n ≠ [] := by
  unfold natDigits
  split <;> simp

/-- A digit byte is neither a sign nor a dash. -/
theorem digit_ne_sign (k : Nat) (h : k < 10) :
    Char.ofNat (48 + k) ≠ '-' ∧ Char.ofNat (48 + k) ≠ '+' := by
  interval_cases k <;> decide

/-- A decimal rendering starts with a digit. -/
theorem natDigits_head (fuel n : Nat) :
    (natDigits (fuel + 1) n).head? ≠ some '-' ∧ (natDigits (fuel + 1) n).head? ≠ some '+' := by
  cases h : natDigits (fuel + 1) n with
  | nil => simp
  | cons c cs =>
    obtain ⟨k, hk, hc⟩ := natDigits_digit (fuel + 1) n c (by rw [h]; exact List.mem_cons_self _ _)
    have := digit_ne_sign k hk
    simp [hc, this.1, this.2]

/-- Function `Atoi` reads back what `Itoa` renders, for every number of the `int` range. -/
theorem Atoi_Itoa (n : Int) (hlo : -(2 ^ (intSize - 1) : Int) ≤ n)
    (hhi : n < (2 ^ (intSize - 1) : Int)) : Atoi (Itoa n) = (n, none) := by
  have hp := parseDigits_natDigits (n.natAbs + 1) n.natAbs (Nat.lt_succ_self _)
  have hne := natDigits_ne_nil n.natAbs n.natAbs
  have hh := natDigits_head n.natAbs n.natAbs
  by_cases hneg : n < 0
  · have habs : (n.natAbs : Int) = -n := by omega
    have hle : ¬ (n.natAbs > 2 ^ (intSize - 1)) := by
      intro hgt
      have : ((2 ^ (intSize - 1) : Nat) : Int) < (n.natAbs : Int) := by exact_mod_cast hgt
      rw [habs] at this
      push_cast at this
      omega
    simp only [Itoa, hneg, if_true, Atoi, List.head?_cons, List.tail_cons, true_or, hne,
      if_false, hp, hle]
    rw [habs, neg_neg]
  · have habs : (n.natAbs : Int) = n := by omega
    have hlt : ¬ (n.natAbs ≥ 2 ^ (intSize - 1)) := by
      intro hge
      have : ((2 ^ (intSize - 1) : Nat) : Int) ≤ (n.natAbs : Int) := by exact_mod_cast hge
      rw [habs] at this
      push_cast at this
      omega
    simp only [Itoa, hneg, if_false, Atoi, hh.1, hh.2, or_self, hne, hp, hlt]
    rw [habs]

/-- Function `parseLongArgs` carries out its decision. -/
theorem parseLongArgs_eq (ParseIP : Str → List Nat) (c : Context) (arg : Str)
    (args : List Str) :
    parseLongArgs ParseIP c arg args = runLong ParseIP c (longPlan c arg) args := by
  unfold parseLongArgs longPlan
  split
  · rfl
  · split
    · rfl
    · rfl
    · simp only
      split
      · rfl
      · split
        · split
          · rfl
          · split
            · rfl
            · rfl
        · split
          · rfl
          · split
            · split
              · rfl
              · rfl
            · split
              · rfl
              · rfl

/-- A round of the loop of `parseShortArgs` carries out its decision. -/
theorem parseShortLoop_eq (ParseIP : Str → List Nat) (c : Context) (ch : Char) (keys : Str)
    (args : List Str) :
    parseShortLoop ParseIP (ch :: keys) c args =
      match shortPlan c ch keys with
      | .fail e => ⟨c, [], some e⟩
      | .skip =>
        match stripUndefinedFlagValue args with
        | some rest => ⟨c, rest, none⟩
        | none => ⟨c, [], some .panic⟩
      | .setHere flag value =>
        match (c.set ParseIP (hasShort ch) flag value).2 with
        | some e => ⟨(c.set ParseIP (hasShort ch) flag value).1, [], some e⟩
        | none => parseShortLoop ParseIP keys (c.set ParseIP (hasShort ch) flag value).1 args
      | .setNext flag =>
        match args with
        | value :: rest =>
          match (c.set ParseIP (hasShort ch) flag value).2 with
          | some e => ⟨(c.set ParseIP (hasShort ch) flag value).1, [], some e⟩
          | none => parseShortLoop ParseIP keys (c.set ParseIP (hasShort ch) flag value).1 rest
        | [] => ⟨c, [], some (.needsArgShort ch)⟩ := by
  rw [parseShortLoop]
  unfold shortPlan
  split
  · split
    · rfl
    · split
      · rfl
      · rfl
  · split
    · rfl
    · split
      · rfl
      · split
        · rfl
        · rfl
      · split
        · rfl
        · split
          · split
            · rfl
            · rfl
          · rfl

/-- What `stripUndefinedFlagValue` returns: it never panics, and drops the first token
unless that starts with `-`. -/
theorem stripUndefinedFlagValue_eq (args : List Str) :
    stripUndefinedFlagValue args = some
      (match args with
        | [] => []
        | a :: rest => if a.head? = some '-' then a :: rest else rest) := by
  cases args with
  | nil => rfl
  | cons a rest =>
    cases a with
    | nil =>
      cases rest with
      | nil => simp [stripUndefinedFlagValue, goAnd]
      | cons r rs => simp [stripUndefinedFlagValue, goAnd, sliceFrom]
    | cons b t =>
      by_cases hb : b = '-'
      · simp [stripUndefinedFlagValue, goAnd, byteAt, hb]
      · have e : (b == '-') = false := by simp [hb]
        cases rest with
        | nil => simp [stripUndefinedFlagValue, goAnd, byteAt, hb, e]
        | cons r rs => simp [stripUndefinedFlagValue, goAnd, byteAt, hb, e, sliceFrom]

/-- Function `IndexByte` answers `-1` or a position inside the text. -/
theorem IndexByte_bounds (s : Str) (ch : Char) :
    -1 ≤ IndexByte s ch ∧ IndexByte s ch < s.length := by
  induction s with
  | nil => simp [IndexByte]
  | cons b s ih =>
    have hlen : ((b :: s).length : Int) = (s.length : Int) + 1 := by simp
    rw [hlen]
    by_cases hb : b = ch
    · have : IndexByte (b :: s) ch = 0 := by simp [IndexByte, hb]
      rw [this]
      omega
    · by_cases hi : IndexByte s ch > -1
      · have : IndexByte (b :: s) ch = IndexByte s ch + 1 := by simp [IndexByte, hb, hi]
        rw [this]
        omega
      · have : IndexByte (b :: s) ch = -1 := by simp [IndexByte, hb, hi]
        rw [this]
        omega

/-- Function `Atoi` does not panic. -/
theorem Atoi_no_panic (s : Str) : (Atoi s).2 ≠ some .panic := by
  unfold Atoi
  simp only
  repeat' split
  all_goals simp

/-- Function `ParseBool` does not panic. -/
theorem ParseBool_no_panic (s : Str) : (ParseBool s).2 ≠ some .panic := by
  unfold ParseBool
  repeat' split
  all_goals simp

/-- A write through an index fails with the error of `Set` or on a nil `Value`, never on
an index. -/
theorem Context_set_no_panic (ParseIP : Str → List Nat) (c : Context) (p : Flag → Bool)
    (f : Flag) (s : Str) : (c.set ParseIP p f s).2 ≠ some .panic := by
  unfold Context.set
  split
  · simp
  · rename_i v _
    cases v with
    | stringValue _ => simp [Value.Set]
    | intValue _ => simpa [Value.Set] using Atoi_no_panic s
    | boolValue _ => simpa [Value.Set] using ParseBool_no_panic s
    | ipValue _ =>
      simp only [Value.Set]
      split <;> simp

/-- The slices of `parseLongArgs` are in range for a token of length two or more. -/
theorem longPlan_no_panic (c : Context) (arg : Str) (h : 2 ≤ arg.length) :
    longPlan c arg ≠ .fail .panic := by
  unfold longPlan
  simp only [sliceFrom, h, if_true]
  cases hname : arg.drop 2 with
  | nil => simp [goOr]
  | cons b t =>
    have hi := IndexByte_bounds (b :: t) '='
    have hle : (IndexByte (b :: t) '=').toNat ≤ (b :: t).length := by omega
    have e0 : ((b :: t).length == 0) = false := by simp
    have hto : sliceTo (b :: t) (IndexByte (b :: t) '=').toNat
        = some ((b :: t).take (IndexByte (b :: t) '=').toNat) := by
      simp only [sliceTo, hle, if_true]
    have hfrom : (if (IndexByte (b :: t) '=').toNat ≤ (b :: t).length
        then some ((b :: t).drop (IndexByte (b :: t) '=').toNat) else none)
        = some ((b :: t).drop (IndexByte (b :: t) '=').toNat) := by
      simp only [hle, if_true]
    simp only [e0, byteAt, List.get?_cons_zero, Option.map_some', hto, hfrom]
    cases (b == '-') <;> cases (b == '=') <;> simp only [goOr]
    · by_cases hix : IndexByte (b :: t) '=' > -1
      · simp only [hix, if_true]
        repeat' split
        all_goals simp
      · simp only [hix, if_false]
        repeat' split
        all_goals simp
    all_goals simp

/-- The index and the slices of a round of the short loop are in range. -/
theorem shortPlan_no_panic (c : Context) (ch : Char) (keys : Str) :
    shortPlan c ch keys ≠ .fail .panic := by
  unfold shortPlan
  split
  · split
    · simp
    · split <;> simp
  · split
    · simp
    · by_cases h2 : keys.length > 2
      · have h1 : ∃ b, byteAt keys 1 = some b := by
          match keys, h2 with
          | _ :: b :: _, _ => exact ⟨b, rfl⟩
        obtain ⟨b, hb⟩ := h1
        have hs2 : sliceFrom keys 2 = some (keys.drop 2) := by
          simp only [sliceFrom, if_pos (show 2 ≤ keys.length by omega)]
        have hs1 : sliceFrom keys 1 = some (keys.drop 1) := by
          simp only [sliceFrom, if_pos (show 1 ≤ keys.length by omega)]
        simp only [h2, decide_True, goAnd, hb, Option.map_some', hs2, hs1]
        cases (b == '=') <;> simp only
        · repeat' split
          all_goals simp
        · simp
      · by_cases h1 : keys.length > 1
        · have hs1 : sliceFrom keys 1 = some (keys.drop 1) := by
            simp only [sliceFrom, if_pos (show 1 ≤ keys.length by omega)]
          simp only [h2, decide_False, goAnd, hs1, h1, if_true]
          repeat' split
          all_goals simp
        · simp only [h2, decide_False, goAnd, h1, if_false]
          repeat' split
          all_goals simp

/-- Every token is a positional argument, the marker `--`, a long-form token or a
short-form token. -/
theorem token_cases (arg : Str) :
    isPositional arg = true ∨ arg = ['-', '-'] ∨ (∃ b t, arg = '-' :: '-' :: b :: t)
      ∨ (∃ b t, b ≠ '-' ∧ arg = '-' :: b :: t) := by
  match arg with
  | [] => left; rfl
  | [_] => left; rfl
  | a :: b :: t =>
    by_cases ha : a = '-'
    · subst ha
      by_cases hb : b = '-'
      · subst hb
        cases t with
        | nil => right; left; rfl
        | cons b2 t2 => right; right; left; exact ⟨b2, t2, rfl⟩
      · right; right; right; exact ⟨b, t, hb, rfl⟩
    · left
      simp [isPositional, ha]

/-- One round of `parse` on a positional argument. -/
theorem parseLoop_positional (ParseIP : Str → List Nat) (n : Nat) (c : Context) (arg : Str)
    (args : List Str) (h : isPositional arg = true) :
    parseLoop ParseIP (n + 1) c (arg :: args)
      = parseLoop ParseIP n { c with args := c.args ++ [arg] } args := by
  have hcond : goOr (goOr (some (arg.length == 0)) (some (arg.length == 1)))
      ((byteAt arg 0).map fun b => b != '-') = some true := by
    match arg, h with
    | [], _ => rfl
    | [_], _ => rfl
    | a :: b :: t, h =>
      have ha : a ≠ '-' := by simpa [isPositional] using h
      simp [goOr, byteAt, ha]
  rw [parseLoop, hcond]

/-- One round of `parse` on the marker `--`. -/
theorem parseLoop_marker (ParseIP : Str → List Nat) (n : Nat) (c : Context)
    (args : List Str) :
    parseLoop ParseIP (n + 1) c (['-', '-'] :: args) = ({ c with args := c.args ++ args }, none) := by
  simp [parseLoop, goOr, byteAt]

/-- The loop of `parse` on no tokens. -/
theorem parseLoop_nil (ParseIP : Str → List Nat) (n : Nat) (c : Context) :
    parseLoop ParseIP n c [] = (c, none) := by
  cases n <;> rfl

/-- Tokens appended after a list that is empty or starts with a dashed token are not
taken by `stripUndefinedFlagValue`. -/
theorem stripUndefinedFlagValue_ext (args extra rest : List Str) (hd : dashFirst extra)
    (h : stripUndefinedFlagValue args = some rest) :
    stripUndefinedFlagValue (args ++ extra) = some (rest ++ extra) ∧ rest <:+ args := by
  rw [stripUndefinedFlagValue_eq] at h ⊢
  cases args with
  | nil =>
    simp only [Option.some.injEq] at h
    subst h
    refine ⟨?_, List.suffix_refl _⟩
    cases extra with
    | nil => rfl
    | cons t post =>
      have : t.head? = some '-' := hd t rfl
      simp [this]
  | cons a as =>
    simp only [Option.some.injEq] at h
    subst h
    by_cases ha : a.head? = some '-'
    · simp [ha]
    · simp [ha]

/-- The decision of `parseLongArgs`, carried out on a longer list of tokens. -/
theorem runLong_ext (ParseIP : Str → List Nat) (c : Context) (plan : LongPlan)
    (args extra : List Str) (hd : dashFirst extra)
    (h : (runLong ParseIP c plan args).err = none) :
    runLong ParseIP c plan (args ++ extra)
        = ⟨(runLong ParseIP c plan args).ctx, (runLong ParseIP c plan args).args ++ extra, none⟩
      ∧ (runLong ParseIP c plan args).args <:+ args := by
  cases plan with
  | fail e => simp [runLong] at h
  | help => simp [runLong] at h
  | skip =>
    obtain ⟨r, hr⟩ : ∃ r, stripUndefinedFlagValue args = some r :=
      ⟨_, stripUndefinedFlagValue_eq args⟩
    have := stripUndefinedFlagValue_ext args extra r hd hr
    simp only [runLong, hr, this.1]
    exact ⟨trivial, this.2⟩
  | setHere key flag value =>
    simp only [runLong] at h ⊢
    rw [h]
    exact ⟨rfl, List.suffix_refl _⟩
  | setNext key flag =>
    cases args with
    | nil => simp [runLong] at h
    | cons v rest =>
      simp only [runLong, List.cons_append] at h ⊢
      rw [h]
      exact ⟨rfl, List.suffix_cons _ _⟩

/-- A long flag that parses leaves a suffix of the tokens, and does the same when more
tokens follow. -/
theorem parseLongArgs_ext (ParseIP : Str → List Nat) (c : Context) (arg : Str)
    (args extra : List Str) (hd : dashFirst extra)
    (h : (parseLongArgs ParseIP c arg args).err = none) :
    parseLongArgs ParseIP c arg (args ++ extra)
        = ⟨(parseLongArgs ParseIP c arg args).ctx,
            (parseLongArgs ParseIP c arg args).args ++ extra, none⟩
      ∧ (parseLongArgs ParseIP c arg args).args <:+ args := by
  simp only [parseLongArgs_eq] at h ⊢
  exact runLong_ext ParseIP c _ args extra hd h

/-- A short-form token that parses leaves a suffix of the tokens, and does the same when
more tokens follow. -/
theorem parseShortLoop_ext (ParseIP : Str → List Nat) (extra : List Str) (hd : dashFirst extra)
    (keys : Str) :
    ∀ (c : Context) (args : List Str), (parseShortLoop ParseIP keys c args).err = none →
      parseShortLoop ParseIP keys c (args ++ extra)
          = ⟨(parseShortLoop ParseIP keys c args).ctx,
              (parseShortLoop ParseIP keys c args).args ++ extra, none⟩
        ∧ (parseShortLoop ParseIP keys c args).args <:+ args := by
  induction keys with
  | nil =>
    intro c args _
    simp only [parseShortLoop]
    exact ⟨trivial, List.suffix_refl _⟩
  | cons ch keys ih =>
    intro c args h
    simp only [parseShortLoop_eq] at h ⊢
    cases hplan : shortPlan c ch keys with
    | fail e => simp [hplan] at h
    | skip =>
      simp only [hplan] at h ⊢
      have hr := stripUndefinedFlagValue_eq args
      have := stripUndefinedFlagValue_ext args extra _ hd hr
      simp only [hr, this.1]
      exact ⟨trivial, this.2⟩
    | setHere flag value =>
      simp only [hplan] at h ⊢
      cases hset : (c.set ParseIP (hasShort ch) flag value).2 with
      | some e => simp [hset] at h
      | none =>
        simp only [hset] at h ⊢
        exact ih _ _ h
    | setNext flag =>
      simp only [hplan] at h ⊢
      cases args with
      | nil => simp at h
      | cons v rest =>
        simp only [List.cons_append] at h ⊢
        cases hset : (c.set ParseIP (hasShort ch) flag v).2 with
        | some e => simp [hset] at h
        | none =>
          simp only [hset] at h ⊢
          have := ih _ _ h
          exact ⟨this.1, List.IsSuffix.trans this.2 (List.suffix_cons _ _)⟩

/-- Function `parseLongArgs` does not index or slice out of range on a token of length two
or more. -/
theorem parseLongArgs_no_panic (ParseIP : Str → List Nat) (c : Context) (arg : Str)
    (args : List Str) (h : 2 ≤ arg.length) :
    (parseLongArgs ParseIP c arg args).err ≠ some .panic := by
  rw [parseLongArgs_eq]
  have hp := longPlan_no_panic c arg h
  cases hplan : longPlan c arg with
  | fail e =>
    simp only [runLong]
    intro he
    apply hp
    rw [hplan]
    simp only [Option.some.injEq] at he
    rw [he]
  | help => simp [runLong]
  | skip => simp [runLong, stripUndefinedFlagValue_eq]
  | setHere key flag value => exact Context_set_no_panic ParseIP c _ _ _
  | setNext key flag =>
    cases args with
    | nil => simp [runLong]
    | cons v rest => exact Context_set_no_panic ParseIP c _ _ _

/-- The loop of `parseShortArgs` does not index or slice out of range. -/
theorem parseShortLoop_no_panic (ParseIP : Str → List Nat) (keys : Str) :
    ∀ (c : Context) (args : List Str),
      (parseShortLoop ParseIP keys c args).err ≠ some .panic := by
  induction keys with
  | nil => intro c args; simp [parseShortLoop]
  | cons ch keys ih =>
    intro c args
    rw [parseShortLoop_eq]
    have hp := shortPlan_no_panic c ch keys
    cases hplan : shortPlan c ch keys with
    | fail e =>
      simp only
      intro he
      apply hp
      rw [hplan]
      simp only [Option.some.injEq] at he
      rw [he]
    | skip => simp [stripUndefinedFlagValue_eq]
    | setHere flag value =>
      simp only
      cases hset : (c.set ParseIP (hasShort ch) flag value).2 with
      | some e =>
        simp only
        intro he
        simp only [Option.some.injEq] at he
        exact Context_set_no_panic ParseIP c (hasShort ch) flag value (by rw [hset, he])
      | none => exact ih _ _
    | setNext flag =>
      cases args with
      | nil => simp
      | cons v rest =>
        simp only
        cases hset : (c.set ParseIP (hasShort ch) flag v).2 with
        | some e =>
          simp only
          intro he
          simp only [Option.some.injEq] at he
          exact Context_set_no_panic ParseIP c (hasShort ch) flag v (by rw [hset, he])
        | none => exact ih _ _

/-- The loop of `parse` does not index or slice out of range, whatever the tokens. -/
theorem parseLoop_no_panic (ParseIP : Str → List Nat) (n : Nat) :
    ∀ (c : Context) (args : List Str), (parseLoop ParseIP n c args).2 ≠ some .panic := by
  induction n with
  | zero =>
    intro c args
    cases args with
    | nil => simp [parseLoop]
    | cons a as => simp [parseLoop]
  | succ n ih =>
    intro c args
    cases args with
    | nil => simp [parseLoop]
    | cons arg rest =>
      rcases token_cases arg with hpos | hm | ⟨b, t, hl⟩ | ⟨b, t, hb, hs⟩
      · rw [parseLoop_positional ParseIP n c arg rest hpos]
        exact ih _ _
      · rw [hm, parseLoop_marker]
        simp
      · rw [hl, parseLoop_long]
        cases herr : (parseLongArgs ParseIP c ('-' :: '-' :: b :: t) rest).err with
        | some e =>
          simp only
          intro he
          simp only [Option.some.injEq] at he
          exact parseLongArgs_no_panic ParseIP c ('-' :: '-' :: b :: t) rest
            (by simp only [List.length_cons]; omega) (by rw [herr, he])
        | none => exact ih _ _
      · rw [hs, parseLoop_short ParseIP n c b t rest hb]
        cases herr : (parseShortLoop ParseIP (b :: t) c rest).err with
        | some e =>
          simp only
          intro he
          simp only [Option.some.injEq] at he
          exact parseShortLoop_no_panic ParseIP _ c rest (by rw [herr, he])
        | none => exact ih _ _

/-- More rounds than tokens change nothing. -/
theorem parseLoop_fuel (ParseIP : Str → List Nat) (n : Nat) :
    ∀ (c : Context) (args : List Str), args.length ≤ n →
      ∀ k, parseLoop ParseIP (n + k) c args = parseLoop ParseIP n c args := by
  induction n with
  | zero =>
    intro c args h k
    cases args with
    | nil => rw [parseLoop_nil, parseLoop_nil]
    | cons a as => simp at h
  | succ n ih =>
    intro c args h k
    cases args with
    | nil => rw [parseLoop_nil, parseLoop_nil]
    | cons arg rest =>
      have hlen : rest.length ≤ n := by simpa using h
      have hk : n + 1 + k = (n + k) + 1 := by omega
      rw [hk]
      rcases token_cases arg with hpos | hm | ⟨b, t, hl⟩ | ⟨b, t, hb, hs⟩
      · rw [parseLoop_positional ParseIP _ c arg rest hpos,
          parseLoop_positional ParseIP _ c arg rest hpos]
        exact ih _ _ hlen k
      · rw [hm, parseLoop_marker, parseLoop_marker]
      · rw [hl, parseLoop_long, parseLoop_long]
        cases herr : (parseLongArgs ParseIP c ('-' :: '-' :: b :: t) rest).err with
        | some e => rfl
        | none =>
          exact ih _ _ (Nat.le_trans (parseLongArgs_sound ParseIP _ _ _).1 hlen) k
      · rw [hs, parseLoop_short ParseIP _ c b t rest hb, parseLoop_short ParseIP _ c b t rest hb]
        cases herr : (parseShortLoop ParseIP (b :: t) c rest).err with
        | some e => rfl
        | none =>
          exact ih _ _ (Nat.le_trans (parseShortLoop_sound ParseIP _ _ _).1 hlen) k

/-- With a round per token or more, the loop of `parse` is `parseFrom`. -/
theorem parseLoop_eq_parseFrom (ParseIP : Str → List Nat) (n : Nat) (c : Context)
    (args : List Str) (h : args.length ≤ n) :
    parseLoop ParseIP n c args = parseFrom ParseIP c args := by
  obtain ⟨k, hk⟩ := Nat.exists_eq_add_of_le h
  rw [hk]
  exact parseLoop_fuel ParseIP _ c args (Nat.le_refl _) k

/-- The marker `--` is not a positional argument. -/
theorem marker_not_positional : isPositional "--".toList = false := by decide

/-- Positional arguments are recorded in order and no flag is touched. -/
theorem parseLoop_positionals (ParseIP : Str → List Nat) (n : Nat) :
    ∀ (c : Context) (args : List Str), args.length ≤ n →
      (∀ t ∈ args, isPositional t = true) →
      parseLoop ParseIP n c args = ({ c with args := c.args ++ args }, none) := by
  induction n with
  | zero =>
    intro c args h _
    cases args with
    | nil => simp [parseLoop]
    | cons a as => simp at h
  | succ n ih =>
    intro c args h hplain
    cases args with
    | nil => simp [parseLoop]
    | cons arg args =>
      have hlen : args.length ≤ n := by simpa using h
      rw [parseLoop_positional ParseIP n c arg args (hplain arg (List.mem_cons_self _ _)),
        ih _ _ hlen (fun t ht => hplain t (List.mem_cons_of_mem _ ht))]
      simp

/-- A prefix that parses, and holds no marker `--`, is parsed the same way when tokens
follow it, the first of them dashed; the loop then goes on with these tokens. -/
theorem parseLoop_ext (ParseIP : Str → List Nat) (n : Nat) :
    ∀ (c : Context) (pre : List Str) (c1 : Context),
      parseLoop ParseIP n c pre = (c1, none) → "--".toList ∉ pre →
      ∀ (m : Nat) (extra : List Str), extra.length ≤ m → dashFirst extra →
        parseLoop ParseIP (n + m) c (pre ++ extra) = parseFrom ParseIP c1 extra := by
  induction n with
  | zero =>
    intro c pre c1 h _ m extra hm _
    cases pre with
    | nil =>
      rw [parseLoop_nil] at h
      cases h
      simpa using parseLoop_eq_parseFrom ParseIP m c extra hm
    | cons a as => simp [parseLoop] at h
  | succ n ih =>
    intro c pre c1 h hmark m extra hm hd
    cases pre with
    | nil =>
      rw [parseLoop_nil] at h
      cases h
      exact parseLoop_eq_parseFrom ParseIP _ c extra (by omega)
    | cons arg rest =>
      have hrest : "--".toList ∉ rest := fun hx => hmark (List.mem_cons_of_mem _ hx)
      have hk : n + 1 + m = (n + m) + 1 := by omega
      rw [hk, List.cons_append]
      rcases token_cases arg with hpos | hmk | ⟨b, t, hl⟩ | ⟨b, t, hb, hs⟩
      · rw [parseLoop_positional ParseIP _ c arg _ hpos] at h ⊢
        exact ih _ _ _ h hrest m extra hm hd
      · exact absurd (by rw [hmk]; exact List.mem_cons_self _ _) hmark
      · rw [hl] at h ⊢
        rw [parseLoop_long] at h ⊢
        cases herr : (parseLongArgs ParseIP c ('-' :: '-' :: b :: t) rest).err with
        | some e => simp [herr] at h
        | none =>
          simp only [herr] at h
          have hx := parseLongArgs_ext ParseIP c ('-' :: '-' :: b :: t) rest extra hd herr
          rw [hx.1]
          simp only
          exact ih _ _ _ h (fun hmem => hrest (hx.2.subset hmem)) m extra hm hd
      · rw [hs] at h ⊢
        rw [parseLoop_short ParseIP _ c b t _ hb] at h ⊢
        cases herr : (parseShortLoop ParseIP (b :: t) c rest).err with
        | some e => simp [herr] at h
        | none =>
          simp only [herr] at h
          have hx := parseShortLoop_ext ParseIP extra hd (b :: t) c rest herr
          rw [hx.1]
          simp only
          exact ih _ _ _ h (fun hmem => hrest (hx.2.subset hmem)) m extra hm hd

/-- The same for `parse` itself. -/
theorem parse_ext (ParseIP : Str → List Nat) (c : Context) (pre extra : List Str)
    (c1 : Context) (h : c.parse ParseIP pre = (c1, none)) (hmark : "--".toList ∉ pre)
    (hd : dashFirst extra) :
    c.parse ParseIP (pre ++ extra) = parseFrom ParseIP c1 extra := by
  unfold Context.parse at h ⊢
  rw [List.length_append]
  exact parseLoop_ext ParseIP _ _ pre c1 h hmark _ extra (Nat.le_refl _) hd

/-- The loop continued on the marker `--`: the tokens after it are positional. -/
theorem parseFrom_marker (ParseIP : Str → List Nat) (c : Context) (post : List Str) :
    parseFrom ParseIP c ("--".toList :: post) = ({ c with args := c.args ++ post }, none) := by
  unfold parseFrom
  exact parseLoop_marker ParseIP _ c post

/-- The loop continued on a long-form token. -/
theorem parseFrom_long (ParseIP : Str → List Nat) (c : Context) (b : Char) (t : Str)
    (rest : List Str) :
    parseFrom ParseIP c (('-' :: '-' :: b :: t) :: rest)
      = match (parseLongArgs ParseIP c ('-' :: '-' :: b :: t) rest).err with
        | some e => ((parseLongArgs ParseIP c ('-' :: '-' :: b :: t) rest).ctx, some e)
        | none => parseFrom ParseIP (parseLongArgs ParseIP c ('-' :: '-' :: b :: t) rest).ctx
            (parseLongArgs ParseIP c ('-' :: '-' :: b :: t) rest).args := by
  unfold parseFrom
  rw [List.length_cons, parseLoop_long]
  cases herr : (parseLongArgs ParseIP c ('-' :: '-' :: b :: t) rest).err with
  | some e => rfl
  | none =>
    exact parseLoop_eq_parseFrom ParseIP _ _ _ (parseLongArgs_sound ParseIP _ _ _).1

/-- The loop continued on a short-form token. -/
theorem parseFrom_short (ParseIP : Str → List Nat) (c : Context) (b : Char) (t : Str)
    (rest : List Str) (hb : b ≠ '-') :
    parseFrom ParseIP c (('-' :: b :: t) :: rest)
      = match (parseShortLoop ParseIP (b :: t) c rest).err with
        | some e => ((parseShortLoop ParseIP (b :: t) c rest).ctx, some e)
        | none => parseFrom ParseIP (parseShortLoop ParseIP (b :: t) c rest).ctx
            (parseShortLoop ParseIP (b :: t) c rest).args := by
  unfold parseFrom
  rw [List.length_cons, parseLoop_short ParseIP _ c b t rest hb]
  cases herr : (parseShortLoop ParseIP (b :: t) c rest).err with
  | some e => rfl
  | none =>
    exact parseLoop_eq_parseFrom ParseIP _ _ _ (parseShortLoop_sound ParseIP _ _ _).1

/-- The loop continued on a positional argument. -/
theorem parseFrom_positional (ParseIP : Str → List Nat) (c : Context) (arg : Str)
    (rest : List Str) (h : isPositional arg = true) :
    parseFrom ParseIP c (arg :: rest)
      = parseFrom ParseIP { c with args := c.args ++ [arg] } rest := by
  unfold parseFrom
  rw [List.length_cons, parseLoop_positional ParseIP _ c arg rest h]

/-- Function `IndexByte` finds a byte that follows a text without it. -/
theorem IndexByte_append (key v : Str) (ch : Char) (h : ch ∉ key) :
    IndexByte (key ++ ch :: v) ch = key.length := by
  induction key with
  | nil => simp [IndexByte]
  | cons b key ih =>
    have hb : b ≠ ch := fun e => h (by rw [e]; exact List.mem_cons_self _ _)
    have hs : ch ∉ key := fun e => h (List.mem_cons_of_mem _ e)
    have hi := ih hs
    simp only [List.cons_append, IndexByte, hb, if_false, hi, List.length_cons]
    push_cast
    simp
    omega

/-- The decision of `parseLongArgs` for a well-formed long token: the key `key`, alone or
followed by `=` and a value. -/
theorem longPlan_key (c : Context) (key suffix : Str) (hne : key ≠ [])
    (hd : key.head? ≠ some '-') (heq : '=' ∉ key) (hs : suffix = [] ∨ ∃ v, suffix = '=' :: v) :
    longPlan c ('-' :: '-' :: (key ++ suffix)) =
      match c.lset key with
      | none =>
        if key = "help".toList then .help
        else if Options.enabled c.cmd.cmd.Options UndefinedFlags then .skip
        else .fail (.undefinedFlag key)
      | some flag =>
        if key = "help".toList then .help
        else if suffix ≠ [] then .setHere key flag suffix
        else if flag.optional then .setHere key flag "true".toList
        else .setNext key flag := by
  cases key with
  | nil => exact absurd rfl hne
  | cons b k =>
    have hb1 : b ≠ '-' := fun e => hd (by simp [e])
    have hb2 : b ≠ '=' := fun e => heq (by simp [e])
    have e1 : (b == '-') = false := by simp [hb1]
    have e2 : (b == '=') = false := by simp [hb2]
    have hslice : sliceFrom ('-' :: '-' :: (b :: k ++ suffix)) 2 = some (b :: k ++ suffix) := by
      simp [sliceFrom]
    have hguard : goOr (goOr (some ((b :: k ++ suffix).length == 0))
          ((byteAt (b :: k ++ suffix) 0).map fun x => x == '-'))
        ((byteAt (b :: k ++ suffix) 0).map fun x => x == '=') = some false := by
      simp [goOr, byteAt, e1, e2]
    unfold longPlan
    rw [hslice]
    simp only [hguard]
    rcases hs with hs | ⟨v, hs⟩
    · subst hs
      have hi : IndexByte (b :: k ++ []) '=' = -1 :=
        IndexByte_of_not_mem _ _ (by simpa using heq)
      simp only [hi]
      simp
    · subst hs
      have hi : IndexByte (b :: k ++ '=' :: v) '=' = ((b :: k).length : Int) :=
        IndexByte_append (b :: k) v '=' heq
      have hpos : ((b :: k).length : Int) > -1 := by
        have : (0 : Int) ≤ ((b :: k).length : Int) := Int.ofNat_nonneg _
        omega
      have hto : sliceTo (b :: k ++ '=' :: v) (b :: k).length = some (b :: k) := by
        simp [sliceTo]
      have hfrom : sliceFrom (b :: k ++ '=' :: v) (b :: k).length = some ('=' :: v) := by
        simp [sliceFrom]
      simp only [hi, hpos, if_true, Int.toNat_ofNat, hto, hfrom]
      simp

/-- The tokenizer on positional arguments followed by more tokens, the first of them
dashed: the positional arguments are recorded and the loop goes on. -/
theorem parse_after_positionals (ParseIP : Str → List Nat) (c : Context) (pre extra : List Str)
    (hpre : ∀ t ∈ pre, isPositional t = true) (hd : dashFirst extra) :
    c.parse ParseIP (pre ++ extra) = parseFrom ParseIP { c with args := pre } extra := by
  have h : c.parse ParseIP pre = ({ c with args := pre }, none) := by
    unfold Context.parse
    rw [parseLoop_positionals ParseIP _ _ _ (Nat.le_refl _) hpre]
    simp
  have hmark : "--".toList ∉ pre := fun hm => by
    have := hpre _ hm
    rw [marker_not_positional] at this
    exact Bool.noConfusion this
  exact parse_ext ParseIP c pre extra _ h hmark hd

/-- The inner loop of `newContext` keeps the command and the arguments of the context. -/
theorem addFlags_cmd (isRoot : Bool) (fs : List Flag) :
    ∀ (c c1 : Context), addFlags isRoot c fs = .ok c1 → c1.cmd = c.cmd ∧ c1.args = c.args := by
  induction fs with
  | nil => intro c c1 h; simp [addFlags] at h; simp [h]
  | cons f fs ih =>
    intro c c1 h
    unfold addFlags at h
    by_cases hsel : (isRoot || f.Persist) = true
    · rw [if_pos hsel] at h
      cases hadd : c.add f with
      | error e => rw [hadd] at h; cases h
      | ok c2 =>
        rw [hadd] at h
        have h2 := ih c2 c1 h
        have h3 := add_flags c c2 f hadd
        exact ⟨h2.1.trans h3.2.1, h2.2.trans h3.2.2⟩
    · rw [if_neg hsel] at h
      exact ih c c1 h

/-- The outer loop of `newContext` keeps the command and the arguments of the context. -/
theorem walkParents_cmd (ps : List Command) :
    ∀ (c c1 : Context), walkParents c ps = .ok c1 → c1.cmd = c.cmd ∧ c1.args = c.args := by
  induction ps with
  | nil => intro c c1 h; simp [walkParents] at h; simp [h]
  | cons p ps ih =>
    intro c c1 h
    unfold walkParents at h
    cases hadd : addFlags ps.isEmpty c p.Flags with
    | error e => rw [hadd] at h; cases h
    | ok c2 =>
      rw [hadd] at h
      have h2 := ih c2 c1 h
      have h3 := addFlags_cmd _ _ c c2 hadd
      exact ⟨h2.1.trans h3.1, h2.2.trans h3.2⟩

/-- The context `newContext` builds is a context of the command it is built for. -/
theorem newContext_cmd (n : Node) (ctx : Context) (h : newContext n = .ok ctx) :
    ctx.cmd = n ∧ ctx.args = [] :=
  walkParents_cmd _ _ _ h

/-- The tokens `--help` and `-h` end the loop of `parse` with `ErrHelp`, whatever the
context declares and whatever follows. -/
theorem parseFrom_help (ParseIP : Str → List Nat) (c : Context) (t : Str) (post : List Str)
    (ht : t = "--help".toList ∨ t = "-h".toList) :
    parseFrom ParseIP c (t :: post) = (c, some .help) := by
  rcases ht with ht | ht
  · subst ht
    have hplan : longPlan c "--help".toList = .help := by
      have := longPlan_key c "help".toList [] (by decide) (by decide) (by decide) (Or.inl rfl)
      simp only [List.append_nil] at this
      rw [show "--help".toList = '-' :: '-' :: "help".toList from rfl, this]
      cases c.lset "help".toList <;> simp
    have hrun : parseLongArgs ParseIP c ('-' :: '-' :: 'h' :: "elp".toList) post
        = ⟨c, post, some .help⟩ := by
      rw [parseLongArgs_eq, show '-' :: '-' :: 'h' :: "elp".toList = "--help".toList from rfl,
        hplan]
      rfl
    rw [show "--help".toList = '-' :: '-' :: 'h' :: "elp".toList from rfl, parseFrom_long, hrun]
  · subst ht
    have hrun : parseShortLoop ParseIP ('h' :: []) c post = ⟨c, [], some .help⟩ := by
      rw [parseShortLoop_eq]
      cases hs : c.sset 'h' <;> simp [shortPlan, hs]
    rw [show "-h".toList = '-' :: 'h' :: [] from rfl,
      parseFrom_short ParseIP c 'h' [] post (by decide), hrun]

/-- A name the long index does not hold is the name of no registered flag. -/
theorem not_mem_of_find_hasName (l : List Flag) (key : Str)
    (h : l.find? (hasName key) = none) : key ∉ l.map fun f => f.Name := by
  intro hmem
  obtain ⟨g, hg, hk⟩ := List.mem_map.1 hmem
  have := List.find?_eq_none.1 h g hg
  simp [hasName, hk] at this

/-- A character the short index does not hold is the short character of no registered
flag. -/
theorem not_mem_of_find_hasShort (l : List Flag) (ch : Char)
    (h : l.find? (hasShort ch) = none) :
    ch ∉ (l.filter fun f => f.Short ≠ Char.ofNat 0).map fun f => f.Short := by
  intro hmem
  obtain ⟨g, hg, hk⟩ := List.mem_map.1 hmem
  have hg2 := List.mem_filter.1 hg
  have := List.find?_eq_none.1 h g hg2.1
  have h0 : g.Short ≠ Char.ofNat 0 := by simpa using hg2.2
  simp [hasShort, hk, h0] at this
  exact h0 (hk.trans this)

/-- A successful `add` registered a flag whose name and non-zero short character were
fresh. -/
theorem add_distinct (c c1 : Context) (f : Flag) (h : c.add f = .ok c1)
    (hc : Distinct c.flags []) : Distinct c1.flags [] := by
  have hfl := (add_flags c c1 f h).1
  obtain ⟨hn, hs⟩ := hc
  simp only [List.append_nil] at hn hs
  unfold Context.add at h
  simp only at h
  cases hl : c.lset (markOptional f).Name with
  | some g => rw [hl] at h; cases h
  | none =>
    have hn1 := not_mem_of_find_hasName _ _ hl
    have hnames : ((c.flags ++ [markOptional f]).map fun f => f.Name).Nodup := by
      rw [List.map_append]
      refine List.nodup_append.2 ⟨hn, by simp, ?_⟩
      intro a ha hb
      simp only [List.map_cons, List.map_nil, List.mem_singleton] at hb
      exact hn1 (hb ▸ ha)
    rw [hl] at h
    simp only at h
    by_cases h0 : (markOptional f).Short = Char.ofNat 0
    · refine ⟨by simpa [hfl] using hnames, ?_⟩
      rw [hfl]
      simp only [List.append_nil, List.filter_append, List.filter_cons, ne_eq, h0,
        not_true_eq_false, decide_False, List.filter_nil, List.append_nil]
      simpa using hs
    · rw [if_neg h0] at h
      cases hsn : c.sset (markOptional f).Short with
      | some g => rw [hsn] at h; cases h
      | none =>
        have hs1 := not_mem_of_find_hasShort _ _ hsn
        refine ⟨by simpa [hfl] using hnames, ?_⟩
        rw [hfl]
        simp only [List.append_nil, List.filter_append, List.filter_cons, ne_eq, h0,
          not_false_eq_true, decide_True, if_true, List.filter_nil, List.map_append,
          List.map_cons, List.map_nil]
        refine List.nodup_append.2 ⟨by simpa using hs, by simp, ?_⟩
        intro a ha hb
        simp only [List.mem_singleton] at hb
        exact hs1 (by simpa [hb] using ha)

/-- A failed `add` panics with one of its two messages. -/
theorem add_error (c : Context) (f : Flag) (e : Error) (h : c.add f = .error e) :
    (∃ name, e = .redefined name) ∨ (∃ ch name, e = .shortUsed ch name) := by
  unfold Context.add at h
  simp only at h
  split at h
  · cases h; exact Or.inl ⟨_, rfl⟩
  · split at h
    · cases h
    · split at h
      · cases h; exact Or.inr ⟨_, _, rfl⟩
      · cases h

/-- The inner loop of `newContext`: what it registered is pairwise distinct, and it fails
only with a panic of `add`. -/
theorem addFlags_distinct (isRoot : Bool) (fs : List Flag) :
    ∀ (c : Context), Distinct c.flags [] →
      (∀ c1, addFlags isRoot c fs = .ok c1 → Distinct c1.flags [])
      ∧ (∀ e, addFlags isRoot c fs = .error e →
          (∃ name, e = .redefined name) ∨ (∃ ch name, e = .shortUsed ch name)) := by
  induction fs with
  | nil =>
    intro c hc
    refine ⟨?_, ?_⟩
    · intro c1 h; simp [addFlags] at h; rw [← h]; exact hc
    · intro e h; simp [addFlags] at h
  | cons f fs ih =>
    intro c hc
    unfold addFlags
    by_cases hsel : (isRoot || f.Persist) = true
    · rw [if_pos hsel]
      cases hadd : c.add f with
      | error e0 =>
        refine ⟨?_, ?_⟩
        · intro c1 h; cases h
        · intro e h
          cases h
          exact add_error c f _ hadd
      | ok c2 => exact ih c2 (add_distinct c c2 f hadd hc)
    · rw [if_neg hsel]
      exact ih c hc

/-- The outer loop of `newContext`: what it registered is pairwise distinct, and it fails
only with a panic of `add`. -/
theorem walkParents_distinct (ps : List Command) :
    ∀ (c : Context), Distinct c.flags [] →
      (∀ c1, walkParents c ps = .ok c1 → Distinct c1.flags [])
      ∧ (∀ e, walkParents c ps = .error e →
          (∃ name, e = .redefined name) ∨ (∃ ch name, e = .shortUsed ch name)) := by
  induction ps with
  | nil =>
    intro c hc
    refine ⟨?_, ?_⟩
    · intro c1 h; simp [walkParents] at h; rw [← h]; exact hc
    · intro e h; simp [walkParents] at h
  | cons p ps ih =>
    intro c hc
    unfold walkParents
    have hin := addFlags_distinct ps.isEmpty p.Flags c hc
    cases hadd : addFlags ps.isEmpty c p.Flags with
    | error e0 =>
      refine ⟨?_, ?_⟩
      · intro c1 h; cases h
      · intro e h
        cases h
        exact hin.2 _ hadd
    | ok c2 => exact ih c2 (hin.1 c2 hadd)

/-- A context `newContext` built holds flags with pairwise distinct names and pairwise
distinct non-zero short characters; and `newContext` fails only with a panic of `add`. -/
theorem newContext_distinct (n : Node) :
    (∀ ctx, newContext n = .ok ctx →
      ((selectedFlags (n.cmd :: n.parents)).map fun f => f.Name).Nodup
      ∧ (((selectedFlags (n.cmd :: n.parents)).filter fun f => f.Short ≠ Char.ofNat 0).map
          fun f => f.Short).Nodup)
    ∧ (∀ e, newContext n = .error e →
        (∃ name, e = .redefined name) ∨ (∃ ch name, e = .shortUsed ch name)) := by
  have h0 : Distinct ({ cmd := n } : Context).flags [] := by
    constructor <;> simp
  have hw := walkParents_distinct (n.cmd :: n.parents) { cmd := n } h0
  refine ⟨?_, fun e he => hw.2 e he⟩
  intro ctx hctx
  have hd := hw.1 ctx hctx
  rw [newContext_flags n ctx hctx] at hd
  obtain ⟨hn, hs⟩ := hd
  constructor
  · simpa [Function.comp_def, markOptional_Name] using hn
  · simpa [List.filter_map, Function.comp_def, markOptional_Short] using hs

/-- One round of the loop of `parse` on the token `--key` of a declared flag that takes a
value: the next token is the value, and without one the round fails. -/
theorem parseFrom_long_plain (ParseIP : Str → List Nat) (c : Context) (key : Str) (f : Flag)
    (hl : c.lset key = some f) (hopt : f.optional = false) (hkey : usableKey key = true) :
    parseFrom ParseIP c [('-' :: '-' :: key)] = (c, some (.needsArg key))
    ∧ ∀ (v0 : Value) (value : Str) (post : List Str), f.Value = some v0 →
        parseFrom ParseIP c (('-' :: '-' :: key) :: value :: post) =
          match (v0.Set ParseIP value).2 with
          | some e => (c.store key (v0.Set ParseIP value).1, some e)
          | none => parseFrom ParseIP (c.store key (v0.Set ParseIP value).1) post := by
  simp only [usableKey, Bool.and_eq_true, decide_eq_true_eq, Bool.decide_and] at hkey
  obtain ⟨hne, hd, _, hmem, hhelp⟩ := hkey
  have hplan : longPlan c ('-' :: '-' :: key) = .setNext key f := by
    have := longPlan_key c key [] hne hd hmem (Or.inl rfl)
    rw [List.append_nil, hl] at this
    rw [this]
    have hhelp2 : ¬ (key = ['h', 'e', 'l', 'p']) := hhelp
    simp [hhelp2, hopt]
  cases key with
  | nil => exact absurd rfl hne
  | cons b t =>
    refine ⟨?_, ?_⟩
    · rw [parseFrom_long, parseLongArgs_eq, hplan]
      rfl
    · intro v0 value post hv
      have hset : c.set ParseIP (hasName (b :: t)) f value
          = (c.store (b :: t) (v0.Set ParseIP value).1, (v0.Set ParseIP value).2) := by
        simp [Context.set, hv, Context.store]
      rw [parseFrom_long, parseLongArgs_eq, hplan]
      simp only [runLong, hset]

/-- One round of the loop of `parse` on the token `-k` of a declared flag that takes a
value: the next token is the value, and without one the round fails. -/
theorem parseFrom_short_plain (ParseIP : Str → List Nat) (c : Context) (key : Str) (k : Char)
    (f : Flag) (hl : c.lset key = some f) (hs : c.sset k = some f) (hopt : f.optional = false)
    (hk : k ≠ '-') (hh : k ≠ 'h') :
    parseFrom ParseIP c [['-', k]] = (c, some (.needsArgShort k))
    ∧ ∀ (v0 : Value) (value : Str) (post : List Str), f.Value = some v0 →
        parseFrom ParseIP c (['-', k] :: value :: post) =
          match (v0.Set ParseIP value).2 with
          | some e => (c.store key (v0.Set ParseIP value).1, some e)
          | none => parseFrom ParseIP (c.store key (v0.Set ParseIP value).1) post := by
  have hplan : shortPlan c k [] = .setNext f := by
    simp [shortPlan, hs, hh, goAnd, hopt]
  refine ⟨?_, ?_⟩
  · rw [parseFrom_short ParseIP c k [] [] hk, parseShortLoop_eq, hplan]
  · intro v0 value post hv
    have hset : c.set ParseIP (hasShort k) f value
        = (c.store key (v0.Set ParseIP value).1, (v0.Set ParseIP value).2) := by
      have hw := modifyFirst_congr (hasShort k) (hasName key)
        (fun f => { f with Value := some (v0.Set ParseIP value).1 }) f c.flags hs hl
      simp [Context.set, hv, Context.store, hw]
    rw [parseFrom_short ParseIP c k [] _ hk, parseShortLoop_eq, hplan]
    simp only [hset]
    cases hres : (v0.Set ParseIP value).2 with
    | some e => rfl
    | none => simp [parseShortLoop]

/-- The tokens before the first `--`, one token at a time. -/
theorem beforeDashes_cons (t : Str) (ts : List Str) :
    beforeDashes (t :: ts) = if t = "--".toList then [] else t :: beforeDashes ts := by
  unfold beforeDashes
  by_cases h : t = "--".toList
  · simp [List.takeWhile_cons, h]
  · simp [List.takeWhile_cons, h]

/-- One round of the loop of `find` on a token that names no child of the cursor: the
token is kept and the cursor stays. -/
theorem findLoop_keep (t : Str) (ts : List Str) (cursor : Node) (children : List Node)
    (kept : List Str) (hne : t ≠ []) (hm : t ≠ "--".toList)
    (hk : ∀ k ∈ children, k.cmd.Name ≠ t) :
    findLoop (t :: ts) cursor children kept = findLoop ts cursor children (kept ++ [t]) := by
  cases t with
  | nil => exact absurd rfl hne
  | cons b r =>
    have hfind : children.find? (fun cmd => decide (b :: r = cmd.cmd.Name)) = none := by
      apply List.find?_eq_none.2
      intro k hkm
      have := hk k hkm
      simp only [decide_eq_true_eq]
      exact fun e => this e.symm
    rw [findLoop, if_neg hm]
    simp only [byteAt, List.get?_cons_zero, hfind]
    split <;> rfl

/-- The loop of `find` is the reference resolver on the tokens before the first `--`: it
returns the cursor of the resolver and appends the tokens the resolver keeps, without an
error, when no token is empty. -/
theorem findLoop_eq_ref (args : List Str) :
    ∀ (root : Node) (children : List Node) (kept : List Str), (∀ t ∈ args, t ≠ []) →
      findLoop args root children kept
        = ⟨(resolveRef (beforeDashes args) root children).1,
            kept ++ (resolveRef (beforeDashes args) root children).2, none⟩ := by
  induction args with
  | nil =>
    intro root children kept _
    simp [findLoop, beforeDashes, resolveRef]
  | cons arg args ih =>
    intro root children kept hne
    have hargs : ∀ t ∈ args, t ≠ [] := fun t ht => hne t (List.mem_cons_of_mem _ ht)
    have harg : arg ≠ [] := hne arg (List.mem_cons_self _ _)
    rw [beforeDashes_cons]
    by_cases hm : arg = "--".toList
    · rw [if_pos hm]
      unfold findLoop
      rw [if_pos hm]
      simp [resolveRef]
    · rw [if_neg hm]
      cases arg with
      | nil => exact absurd rfl harg
      | cons b r =>
        unfold findLoop
        rw [if_neg hm]
        simp only [byteAt, List.get?_cons_zero]
        by_cases hb : b = '-'
        · rw [if_pos hb, ih root children _ hargs]
          have hh : (b :: r).head? = some '-' := by simp [hb]
          simp only [resolveRef, hh, if_true, List.append_assoc, List.singleton_append]
        · rw [if_neg hb]
          have hh : ¬ ((b :: r).head? = some '-') := by simp [hb]
          simp only [resolveRef, hh, if_false]
          cases hf : children.find? (fun cmd => decide (b :: r = cmd.cmd.Name)) with
          | some k =>
            simp only
            rw [ih k k.children kept hargs]
          | none =>
            simp only
            rw [ih root children _ hargs]
            simp only [List.append_assoc, List.singleton_append]

/-- The reference resolver started on a command of the tree, with its children, ends on a
command of the tree. -/
theorem resolveRef_reach (c : Node) (ts : List Str) :
    ∀ n : Node, Reach c n → Reach c (resolveRef ts n n.children).1 := by
  induction ts with
  | nil => intro n hn; simpa [resolveRef] using hn
  | cons t ts ih =>
    intro n hn
    unfold resolveRef
    by_cases hh : t.head? = some '-'
    · rw [if_pos hh]
      exact ih n hn
    · rw [if_neg hh]
      cases hf : n.children.find? (fun k => decide (t = k.cmd.Name)) with
      | some k =>
        simp only
        exact ih k (Reach.child n k hn (List.mem_of_find?_eq_some hf))
      | none =>
        simp only
        exact ih n hn

/-- A command below `c` is `c` itself or has a parent. -/
theorem reach_root_or_child (c m : Node) (h : Reach c m) : m = c ∨ m.parents ≠ [] := by
  induction h with
  | root => exact Or.inl rfl
  | child n k _ hk _ =>
    right
    simp only [Node.children, List.mem_map] at hk
    obtain ⟨ch, _, rfl⟩ := hk
    simp

/-- Function `parseShortArgs` performs no out-of-range operation on a token of one byte at least. -/
theorem parseShortArgs_no_panic (ParseIP : Str → List Nat) (c : Context) (arg : Str)
    (args : List Str) (h : 1 ≤ arg.length) :
    (parseShortArgs ParseIP c arg args).err ≠ some .panic := by
  unfold parseShortArgs
  simp only [sliceFrom, if_pos h]
  exact parseShortLoop_no_panic ParseIP _ c args

/-- One round of the loop of `find` on a token that starts with `-` and is not the marker:
the token is kept. -/
theorem findLoop_dash (t : Str) (ts : List Str) (cursor : Node) (children : List Node)
    (kept : List Str) (hd : t.head? = some '-') (hm : t ≠ "--".toList) :
    findLoop (t :: ts) cursor children kept = findLoop ts cursor children (kept ++ [t]) := by
  cases t with
  | nil => simp at hd
  | cons b r =>
    have hb : b = '-' := by simpa using hd
    rw [findLoop, if_neg hm]
    simp only [byteAt, List.get?_cons_zero, hb, if_true]

/-- One round of the loop of `find` on the name of a child of the cursor: the cursor moves
to the first such child and the token is removed. -/
theorem findLoop_descend (t : Str) (ts : List Str) (cursor k : Node) (children : List Node)
    (kept : List Str) (hne : t ≠ []) (hd : t.head? ≠ some '-')
    (hk : children.find? (fun cmd => decide (t = cmd.cmd.Name)) = some k) :
    findLoop (t :: ts) cursor children kept = findLoop ts k k.children kept := by
  cases t with
  | nil => exact absurd rfl hne
  | cons b r =>
    have hb : b ≠ '-' := fun e => hd (by simp [e])
    have hm : b :: r ≠ "--".toList := fun e => hd (by rw [e]; rfl)
    rw [findLoop, if_neg hm]
    simp only [byteAt, List.get?_cons_zero, if_neg hb, hk]

/-- The decimal text of an integer is not empty and is not the marker `--`. -/
theorem Itoa_shape (n : Int) : Itoa n ≠ [] ∧ Itoa n ≠ "--".toList := by
  unfold Itoa
  have h1 := natDigits_ne_nil n.natAbs n.natAbs
  have h2 := natDigits_head n.natAbs n.natAbs
  split
  · refine ⟨by simp, ?_⟩
    intro e
    have e2 : natDigits (n.natAbs + 1) n.natAbs = ['-'] := by
      simpa using e
    exact h2.1 (by rw [e2]; rfl)
  · refine ⟨h1, ?_⟩
    intro e
    exact h2.1 (by rw [e]; rfl)

/-- The steps of `ExecContext` on a root, when `Find`, `newContext` and `Parse` succeed: it
returns nil and reaches the handler of the resolved command. -/
theorem ExecContext_runs (ParseIP : Str → List Nat) (root : Node) (a0 : Str)
    (rest res : List Str) (node : Node) (c0 c1 : Context)
    (hfind : Command.Find { cmd := withHelp root.Root } ((withHelp root.Root).Name :: rest)
      = ⟨node, res, none⟩)
    (hctx : newContext node = .ok c0) (hparse : c0.Parse ParseIP res = (c1, none)) :
    Command.ExecContext ParseIP root (a0 :: rest)
      = ⟨some node, some c1, node.cmd.Run, none⟩ := by
  unfold Command.ExecContext
  simp only
  have hfind1 : Command.Find
      { cmd := if root.Root.setup then root.Root
          else { root.Root with Flags := root.Root.Flags ++ [defaultFlagHelp], setup := true } }
      ((if root.Root.setup then root.Root
          else { root.Root with Flags := root.Root.Flags ++ [defaultFlagHelp], setup := true }).Name
        :: rest) = ⟨node, res, none⟩ := hfind
  rw [hfind1]
  simp only [hctx, hparse]

/-! ## The claims -/

set_option maxRecDepth 100000

/-- C1. The five spellings of "key is val" do not agree: `--key=val` stores `=val`,
`-kval` stores `al` and fails on the short flag `v`, `-k=val` stores `val` and fails on the
short flag `=`; only `--key val` and `-k val` store `val` and succeed. -/
theorem value_forms_disagree :
    newContext keyContext.cmd = .ok keyContext
    ∧ observe "key".toList (keyContext.parse noIP ["--key=val".toList])
      = (some (.stringValue "=val".toList), [], none)
    ∧ observe "key".toList (keyContext.parse noIP ["--key".toList, "val".toList])
      = (some (.stringValue "val".toList), [], none)
    ∧ observe "key".toList (keyContext.parse noIP ["-kval".toList])
      = (some (.stringValue "al".toList), [], some (.undefinedShort 'v'))
    ∧ observe "key".toList (keyContext.parse noIP ["-k=val".toList])
      = (some (.stringValue "val".toList), [], some (.undefinedShort '='))
    ∧ observe "key".toList (keyContext.parse noIP ["-k".toList, "val".toList])
      = (some (.stringValue "val".toList), [], none) := by
  refine ⟨rfl, by decide, by decide, by decide, by decide, by decide⟩

/-- C2. The long form with an inline value hands `Set` the text from the `=` on, the `=`
included: for every text v the token `--key=v` leaves the string flag holding `=v`, and for
every integer n the token `--num=<n>` fails in `Atoi` and leaves the integer flag at 0. The
following token is not consumed. -/
theorem long_inline_value_keeps_equals :
    (∀ v : Str,
      observe "key".toList (keyContext.parse noIP [['-', '-', 'k', 'e', 'y', '='] ++ v])
        = (some (.stringValue ('=' :: v)), [], none))
    ∧ (∀ n : Int,
      observe "num".toList (keyContext.parse noIP [['-', '-', 'n', 'u', 'm', '='] ++ Itoa n])
        = (some (.intValue 0), [], some (.syntaxErr "Atoi".toList ('=' :: Itoa n))))
    ∧ observe "key".toList (keyContext.parse noIP ["--key=val".toList, "next".toList])
        = (some (.stringValue "=val".toList), ["next".toList], none)
    ∧ observe "num".toList (keyContext.parse noIP ["--num=5".toList])
        = (some (.intValue 0), [], some (.syntaxErr "Atoi".toList "=5".toList)) := by
  refine ⟨?_, ?_, by decide, by decide⟩
  · intro v
    simp [observe, Context.parse, parseLoop, goOr, byteAt, parseLongArgs, sliceFrom, sliceTo,
      IndexByte, Context.lset, Context.held, keyContext, keyFlag, numFlag, hasName, Context.set,
      modifyFirst, Value.Set]
  · intro n
    simp [observe, Context.parse, parseLoop, goOr, byteAt, parseLongArgs, sliceFrom, sliceTo,
      IndexByte, Context.lset, Context.held, keyContext, keyFlag, numFlag, hasName, Context.set,
      modifyFirst, Value.Set, Atoi_equals_sign]

/-- C3. A short flag does not consume the value carried in its own token: `-kval` calls
`Set` with `al`, `-kv` takes the following token as the value, and in every case the loop
goes on to read the characters after `k` as further short flags (`-kn5` reaches the flag
`n`); with `UndefinedFlags` the following token is discarded. -/
theorem short_inline_value_misread :
    observe "key".toList (keyContext.parse noIP ["-kval".toList, "next".toList])
      = (some (.stringValue "al".toList), [], some (.undefinedShort 'v'))
    ∧ observe "key".toList (keyContext.parse noIP ["-k=val".toList, "next".toList])
      = (some (.stringValue "val".toList), [], some (.undefinedShort '='))
    ∧ observe "key".toList (keyContext.parse noIP ["-kv".toList, "next".toList])
      = (some (.stringValue "next".toList), [], some (.undefinedShort 'v'))
    ∧ observe "key".toList (tolerantKeyContext.parse noIP ["-kval".toList, "next".toList])
      = (some (.stringValue "al".toList), [], none)
    ∧ observe "num".toList (keyContext.parse noIP ["-kn5".toList])
      = (some (.intValue 7), [], some (.needsArgShort 'n')) := by
  refine ⟨by decide, by decide, by decide, by decide, by decide⟩

/-- C4, as stated, fails for a declared boolean flag whose short character (and long
name) is the dash: `-b` is then the end-of-flags marker, `--b` and the bundle are
malformed long flags, and b stays false. -/
theorem dash_flag_counterexample :
    newContext dashContext.cmd = .ok dashContext
    ∧ declaresBool dashContext ['-'] '-' = true
    ∧ observe ['-'] (dashContext.parse noIP [['-', '-'], "x".toList])
      = (some (.boolValue false), ["x".toList], none)
    ∧ observe ['-'] (dashContext.parse noIP [['-', '-', '-'], "x".toList])
      = (some (.boolValue false), [], some (.unexpectedFlag ['-', '-', '-']))
    ∧ observe ['-'] (dashContext.parse noIP [['-', '-', '-', '-'], "x".toList])
      = (some (.boolValue false), [], some (.unexpectedFlag ['-', '-', '-', '-'])) := by
  refine ⟨rfl, by decide, by decide, by decide, by decide⟩

/-- C4, amended. In a context that declares boolean flags x, y and b (non-nil `Value`s,
short characters other than `h`), where moreover the short characters of b and x are not
`-` and the long name of b is one the long form can spell, each of the tokens `-b`,
`--b` and the bundle `-xyb` sets b to `true` (the bundle also x and y), collects no
positional argument, and hands every following token to the next round of `parse`
unchanged. With flags `a`, `b`, `c` the input `["app", "-abc"]` leaves all three true. -/
theorem bool_flag_forms (ParseIP : Str → List Nat) (c : Context) (nx ny nb : Str)
    (sx sy sb : Char)
    (hx : declaresBool c nx sx = true) (hy : declaresBool c ny sy = true)
    (hb : declaresBool c nb sb = true)
    (hxh : sx ≠ 'h') (hyh : sy ≠ 'h') (hbh : sb ≠ 'h')
    (hxd : sx ≠ '-') (hbd : sb ≠ '-') (hkey : usableKey nb = true)
    (n : Nat) (rest : List Str) :
    parseLoop ParseIP (n + 1) c (['-', sb] :: rest) = parseLoop ParseIP n (c.setTrue sb) rest
    ∧ parseLoop ParseIP (n + 1) c (('-' :: '-' :: nb) :: rest)
        = parseLoop ParseIP n (c.setTrue sb) rest
    ∧ parseLoop ParseIP (n + 1) c (['-', sx, sy, sb] :: rest)
        = parseLoop ParseIP n (((c.setTrue sx).setTrue sy).setTrue sb) rest
    ∧ (c.setTrue sb).Bool nb = true
    ∧ (((c.setTrue sx).setTrue sy).setTrue sb).Bool nx = true
    ∧ (((c.setTrue sx).setTrue sy).setTrue sb).Bool ny = true
    ∧ (((c.setTrue sx).setTrue sy).setTrue sb).Bool nb = true
    ∧ (c.setTrue sb).args = c.args
    ∧ (((c.setTrue sx).setTrue sy).setTrue sb).args = c.args
    ∧ ((Command.ExecContext ParseIP { cmd := boolApp } ["app".toList, "-abc".toList]).ctx.map
          fun r => (r.Bool "a".toList, r.Bool "b".toList, r.Bool "c".toList, r.args))
        = some (true, true, true, [])
    ∧ (Command.ExecContext ParseIP { cmd := boolApp } ["app".toList, "-abc".toList]).err = none := by
  obtain ⟨fb, vb, -, hsb, hob, hvb⟩ := (declaresBool_iff c nb sb).1 hb
  obtain ⟨fx, vx, -, hsx, hox, hvx⟩ := (declaresBool_iff c nx sx).1 hx
  have hy1 := declaresBool_setTrue c ny sy sx hy
  have hb1 := declaresBool_setTrue c nb sb sx hb
  have hb2 := declaresBool_setTrue (c.setTrue sx) nb sb sy hb1
  obtain ⟨fy, vy, -, hsy, hoy, hvy⟩ := (declaresBool_iff _ ny sy).1 hy1
  obtain ⟨fb2, vb2, -, hsb2, hob2, hvb2⟩ := (declaresBool_iff _ nb sb).1 hb2
  refine ⟨?_, ?_, ?_, ?_, ?_, ?_, ?_, rfl, rfl, rfl, rfl⟩
  · rw [parseLoop_short ParseIP n c sb [] rest hbd,
      parseShortLoop_bool ParseIP c sb [] rest fb vb hsb hob hvb hbh (by simp)]
    simp [parseShortLoop]
  · have hl := parseLongArgs_bool ParseIP c nb sb rest hb hkey
    cases nb with
    | nil => simp [usableKey] at hkey
    | cons b t => rw [parseLoop_long, hl]
  · rw [parseLoop_short ParseIP n c sx [sy, sb] rest hxd,
      parseShortLoop_bool ParseIP c sx [sy, sb] rest fx vx hsx hox hvx hxh (by simp),
      parseShortLoop_bool ParseIP _ sy [sb] rest fy vy hsy hoy hvy hyh (by simp),
      parseShortLoop_bool ParseIP _ sb [] rest fb2 vb2 hsb2 hob2 hvb2 hbh (by simp)]
    simp [parseShortLoop]
  · exact Bool_setTrue c nb sb hb
  · exact Bool_setTrue_keep _ nx sb (Bool_setTrue_keep _ nx sy (Bool_setTrue c nx sx hx))
  · exact Bool_setTrue_keep _ ny sb (Bool_setTrue _ ny sy hy1)
  · exact Bool_setTrue _ nb sb hb2

/-- C4, amended, at the flags `a`, `b`, `c`: the hypotheses hold there, and after the
bundle `-abc` all three read `true`. -/
theorem bool_flag_forms_witness :
    declaresBool boolContext "a".toList 'a' = true
    ∧ declaresBool boolContext "b".toList 'b' = true
    ∧ declaresBool boolContext "c".toList 'c' = true
    ∧ usableKey "c".toList = true
    ∧ parseLoop noIP 1 boolContext [['-', 'a', 'b', 'c']]
        = parseLoop noIP 0 (((boolContext.setTrue 'a').setTrue 'b').setTrue 'c') []
    ∧ (((boolContext.setTrue 'a').setTrue 'b').setTrue 'c').Bool "a".toList = true
    ∧ (((boolContext.setTrue 'a').setTrue 'b').setTrue 'c').Bool "b".toList = true
    ∧ (((boolContext.setTrue 'a').setTrue 'b').setTrue 'c').Bool "c".toList = true :=
  have h := bool_flag_forms noIP boolContext "a".toList "b".toList "c".toList 'a' 'b' 'c'
    (by decide) (by decide) (by decide) (by decide) (by decide) (by decide) (by decide)
    (by decide) (by decide) 0 []
  ⟨by decide, by decide, by decide, by decide, h.2.2.1, h.2.2.2.2.1, h.2.2.2.2.2.1,
    h.2.2.2.2.2.2.1⟩

/-- C5. `find` stops at the two dashes and returns only the tokens before them, whatever
follows: the tokens after the marker never reach `parse`, so the positional list of
`["app", "--", "-v", "sync", "x"]` is empty. -/
theorem exec_drops_after_dashes :
    (∀ (pre post : List Str) (root : Node) (children : List Node) (flags : List Str),
      findLoop (pre ++ "--".toList :: post) root children flags
        = findLoop (pre ++ ["--".toList]) root children flags)
    ∧ ((Command.ExecContext noIP { cmd := syncApp }
          ["app".toList, "--".toList, "-v".toList, "sync".toList, "x".toList]).ctx.map
        fun c => c.args) = some []
    ∧ (Command.ExecContext noIP { cmd := syncApp }
          ["app".toList, "--".toList, "-v".toList, "sync".toList, "x".toList]).err = none := by
  refine ⟨?_, by decide, by decide⟩
  intro pre
  induction pre with
  | nil => intro post root children flags; simp [findLoop]
  | cons a pre ih =>
    intro post root children flags
    simp only [List.cons_append, findLoop]
    split
    · rfl
    · split
      · rfl
      · split
        · exact ih _ _ _ _
        · split
          · exact ih _ _ _ _
          · exact ih _ _ _ _

/-- C6. The context of the non-root command `download` holds the root flags only: its own
flag `thread`/`t`, which is not persistent, is in neither index, and
`example download --thread 4` fails with an undefined flag. -/
theorem own_flag_missing :
    ((newContext downloadNode).toOption.map fun c => c.flags.map fun f => f.Name)
      = some ["address".toList, "hash".toList, "verbose".toList]
    ∧ ((newContext downloadNode).toOption.map fun c => (c.lset "thread".toList, c.sset 't'))
      = some (none, none)
    ∧ (Command.ExecContext noIP { cmd := exampleRoot }
        ["example".toList, "download".toList, "--thread".toList, "4".toList]).err
      = some (.undefinedFlag "thread".toList) := by
  decide

/-- C7. With flag names pairwise distinct along the parent chain: in every context
`newContext` builds for a command, a flag declared on a proper ancestor A is registered
(under its name, and under its short character when it has one) exactly when A is the
root (nothing above it) or the flag is persistent, and otherwise its name is not in the
index at all; and `newContext` does build a context when moreover the non-zero short
characters of the flags it registers are pairwise distinct. -/
theorem newContext_ancestor_flag (n : Node)
    (hnames : (((n.cmd :: n.parents).flatMap fun p => p.Flags).map fun f => f.Name).Nodup)
    (pre post : List Command) (A : Command) (hA : n.parents = pre ++ A :: post)
    (f : Flag) (hf : f ∈ A.Flags) :
    ((((selectedFlags (n.cmd :: n.parents)).filter fun f => f.Short ≠ Char.ofNat 0).map
        fun f => f.Short).Nodup → ∃ ctx, newContext n = .ok ctx)
    ∧ ∀ ctx, newContext n = .ok ctx →
      (ctx.lset f.Name = some (markOptional f) ↔ (post = [] ∨ f.Persist = true))
      ∧ (ctx.lset f.Name = none ↔ ¬ (post = [] ∨ f.Persist = true))
      ∧ (f.Short ≠ Char.ofNat 0 →
          (ctx.sset f.Short = some (markOptional f) ↔ (post = [] ∨ f.Persist = true))) := by
  refine ⟨fun hs => newContext_ok n ?_ hs, fun ctx hctx =>
    newContext_chain_flag n ctx hctx hnames (n.cmd :: pre) post A (by rw [hA]; rfl) f hf⟩
  exact hnames.sublist ((selectedFlags_sublist _).map _)

/-- C7 at the three-level tree `cloud`, `deploy`, `run`: the names are distinct, `run`
gets the context `runContext`, and the root flag `region`/`r` is in both its indexes. -/
theorem newContext_ancestor_flag_witness :
    (((runNode.cmd :: runNode.parents).flatMap fun p => p.Flags).map fun f => f.Name).Nodup
    ∧ runNode.parents = [deployCmd] ++ cloudCmd :: []
    ∧ regionFlag ∈ cloudCmd.Flags
    ∧ newContext runNode = .ok runContext
    ∧ runContext.lset regionFlag.Name = some (markOptional regionFlag)
    ∧ runContext.sset regionFlag.Short = some (markOptional regionFlag) :=
  have h := (newContext_ancestor_flag runNode (by decide) [deployCmd] [] cloudCmd rfl
    regionFlag (by decide)).2 runContext rfl
  ⟨by decide, rfl, by decide, rfl, h.1.2 (Or.inl rfl), (h.2.2 (by decide)).2 (Or.inl rfl)⟩

/-- C8. An empty token does not start with `-`, yet `find` reads its first byte:
`["app", ""]` panics before any context is built. -/
theorem find_panics_on_empty_token :
    (Command.Find { cmd := syncApp } ["app".toList, []]).err = some .panic
    ∧ (Command.ExecContext noIP { cmd := syncApp } ["app".toList, []]).err = some .panic
    ∧ (Command.ExecContext noIP { cmd := syncApp } ["app".toList, []]).ctx.isNone = true
    ∧ (∀ t : Str, t ∈ ["app".toList, []] → t.head? ≠ some '-') := by
  decide

/-- C9. `Find` on the empty vector returns no error and no residual tokens, but the command
it returns is the dummy: it has no name and no flags, and the root is its only child. -/
theorem find_empty_returns_dummy :
    (∀ c : Node, (Command.Find c []).err = none ∧ (Command.Find c []).args = []
      ∧ (Command.Find c []).cmd.cmd.Name = []
      ∧ (Command.Find c []).cmd.cmd.Flags = []
      ∧ (Command.Find c []).cmd.cmd.children.map (fun k => k.Name) = [c.cmd.Name])
    ∧ (Command.Find { cmd := syncApp } []).cmd.cmd.Name ≠ syncApp.Name := by
  refine ⟨fun c => ⟨rfl, rfl, rfl, rfl, rfl⟩, by decide⟩

/-- C10. With `UndefinedFlags` an undefined long flag discards the following token also
when it carries an inline value: `["app", "--unknown=val", "rest"]` ends with no
positional argument, while `["app", "--unknown", "val", "rest"]` ends with `rest`. -/
theorem undefined_flag_inline_value :
    ((Command.ExecContext noIP { cmd := tolerantApp }
        ["app".toList, "--unknown".toList, "val".toList, "rest".toList]).ctx.map fun c => c.args)
      = some ["rest".toList]
    ∧ ((Command.ExecContext noIP { cmd := tolerantApp }
        ["app".toList, "--unknown=val".toList, "rest".toList]).ctx.map fun c => c.args)
      = some []
    ∧ (Command.ExecContext noIP { cmd := tolerantApp }
        ["app".toList, "--unknown=val".toList, "rest".toList]).err = none
    ∧ ((newContext { cmd := tolerantApp }).toOption.map fun c =>
        (c.parse noIP ["--unknown=val".toList, "rest".toList]).1.args) = some [] := by
  decide

/-- C11. When the command of the context does not have `UndefinedFlags` enabled and the
first flag token of the list (every token before it is positional) is a long flag with an
undeclared key other than `help`, with or without an inline value, or a short-form token
whose first character is an undeclared short flag other than `h`, `parse` returns the
"undefined flag" error of that key or character; the context it leaves holds the flags
unchanged and its positional list is the tokens that preceded the offending one, whatever
follows. On `["app", "--unknown", "val", "rest"]` the positional list is empty. -/
theorem undefined_flag_fails (ParseIP : Str → List Nat) (c : Context) (pre post : List Str)
    (hopt : Options.enabled c.cmd.cmd.Options UndefinedFlags = false)
    (hpre : ∀ t ∈ pre, isPositional t = true) :
    (∀ key suffix : Str, key ≠ [] → key.head? ≠ some '-' → '=' ∉ key → key ≠ "help".toList →
        c.lset key = none → (suffix = [] ∨ ∃ v, suffix = '=' :: v) →
        c.parse ParseIP (pre ++ ('-' :: '-' :: (key ++ suffix)) :: post)
          = ({ c with args := pre }, some (.undefinedFlag key)))
    ∧ (∀ (ch : Char) (keys : Str), ch ≠ '-' → ch ≠ 'h' → c.sset ch = none →
        c.parse ParseIP (pre ++ ('-' :: ch :: keys) :: post)
          = ({ c with args := pre }, some (.undefinedShort ch)))
    ∧ ((Command.ExecContext noIP { cmd := syncApp }
          ["app".toList, "--unknown".toList, "val".toList, "rest".toList]).err
        = some (.undefinedFlag "unknown".toList)
      ∧ (Command.ExecContext noIP { cmd := syncApp }
          ["app".toList, "--unknown".toList, "val".toList, "rest".toList]).ran = none
      ∧ (Command.ExecContext noIP { cmd := syncApp }
          ["app".toList, "--unknown".toList, "val".toList, "rest".toList]).ctx.map
            (fun x => (x.args, x.held "verbose".toList))
          = some ([], some (.boolValue false))) := by
  refine ⟨?_, ?_, by decide, by decide, by decide⟩
  · intro key suffix hne hd heq hhelp hl hs
    rw [parse_after_positionals ParseIP c pre _ hpre (by simp [dashFirst])]
    cases key with
    | nil => exact absurd rfl hne
    | cons b k =>
      have hplan := longPlan_key { c with args := pre } (b :: k) suffix hne hd heq hs
      have hl1 : Context.lset { c with args := pre } (b :: k) = none := hl
      rw [hl1] at hplan
      simp only [if_neg hhelp, hopt] at hplan
      have hrun : parseLongArgs ParseIP { c with args := pre } ('-' :: '-' :: (b :: k ++ suffix)) post
          = ⟨{ c with args := pre }, [], some (.undefinedFlag (b :: k))⟩ := by
        rw [parseLongArgs_eq, hplan]
        simp [runLong]
      rw [List.cons_append, parseFrom_long, ← List.cons_append, hrun]
  · intro ch keys hdash hh hs
    rw [parse_after_positionals ParseIP c pre _ hpre (by simp [dashFirst])]
    have hs1 : Context.sset { c with args := pre } ch = none := hs
    have hrun : parseShortLoop ParseIP (ch :: keys) { c with args := pre } post
        = ⟨{ c with args := pre }, [], some (.undefinedShort ch)⟩ := by
      rw [parseShortLoop_eq]
      simp [shortPlan, hs1, hh, hopt]
    rw [parseFrom_short ParseIP _ ch keys post hdash, hrun]

/-- C11 at the context of a root with the flags `key` and `num`: after the positional
`a`, both `--unknown=1` and `-x` fail, and only `a` is recorded. -/
theorem undefined_flag_fails_witness :
    keyContext.parse noIP (["a".toList] ++ "--unknown=1".toList :: ["rest".toList])
        = ({ keyContext with args := ["a".toList] }, some (.undefinedFlag "unknown".toList))
    ∧ keyContext.parse noIP (["a".toList] ++ "-x".toList :: ["rest".toList])
        = ({ keyContext with args := ["a".toList] }, some (.undefinedShort 'x')) :=
  have h := undefined_flag_fails noIP keyContext ["a".toList] ["rest".toList] (by decide)
    (by decide)
  ⟨h.1 "unknown".toList "=1".toList (by decide) (by decide) (by decide) (by decide) (by decide)
      (Or.inr ⟨"1".toList, rfl⟩),
    h.2.1 'x' [] (by decide) (by decide) (by decide)⟩

/-- C17, as stated, fails when the tokens before the marker already hold a marker: with
`pre = ["--"]` and `post = ["x"]` the second `--` is itself recorded as a positional
argument. -/
theorem second_marker_recorded :
    (keyContext.parse noIP ["--".toList]).2 = none
    ∧ (keyContext.parse noIP ["--".toList]).1.args = []
    ∧ (keyContext.parse noIP (["--".toList] ++ "--".toList :: ["x".toList])).2 = none
    ∧ (keyContext.parse noIP (["--".toList] ++ "--".toList :: ["x".toList])).1.args
        = ["--".toList, "x".toList]
    ∧ (keyContext.parse noIP (["--".toList] ++ "--".toList :: ["x".toList])).1.args
        ≠ ([] : List Str) ++ ["x".toList] := by
  refine ⟨by decide, by decide, by decide, by decide, by decide⟩

/-- C17, amended. In the loop of `parse` a token of length 0 or 1, or one not starting
with `-`, is appended to the positional list and the loop goes on with the same flags;
and when `parse` succeeds on `pre`, which holds no token `--`, then on
`pre ++ ["--"] ++ post` it succeeds with the same flags and with the positional list of
`parse(pre)` followed by the tokens of `post`, the marker itself not being recorded. -/
theorem marker_ends_flags (ParseIP : Str → List Nat) (c : Context) (pre post : List Str)
    (c1 : Context) (h : c.parse ParseIP pre = (c1, none)) (hmark : "--".toList ∉ pre) :
    c.parse ParseIP (pre ++ "--".toList :: post) = ({ c1 with args := c1.args ++ post }, none)
    ∧ (∀ (n : Nat) (c0 : Context) (t : Str) (rest : List Str), isPositional t = true →
        parseLoop ParseIP (n + 1) c0 (t :: rest)
          = parseLoop ParseIP n { c0 with args := c0.args ++ [t] } rest)
    ∧ (∀ (c0 : Context) (args : List Str), (∀ t ∈ args, isPositional t = true) →
        c0.parse ParseIP args = ({ c0 with args := args }, none)) := by
  refine ⟨?_, ?_, ?_⟩
  · rw [parse_ext ParseIP c pre _ c1 h hmark (by simp [dashFirst]), parseFrom_marker]
  · intro n c0 t rest ht
    exact parseLoop_positional ParseIP n c0 t rest ht
  · intro c0 args hargs
    unfold Context.parse
    rw [parseLoop_positionals ParseIP _ _ _ (Nat.le_refl _) hargs]
    simp

/-- C17, amended, at the tokens `["--key", "v", "a"]` followed by the marker and
`["-k", "--"]`: the flag holds `v` and the positional list is `a`, `-k`, `--`. -/
theorem marker_ends_flags_witness :
    keyContext.parse noIP (["--key".toList, "v".toList, "a".toList]
        ++ "--".toList :: ["-k".toList, "--".toList])
      = ({ cmd := keyContext.cmd, flags := [{ keyFlag with Value := some (.stringValue "v".toList) }, numFlag],
           args := ["a".toList] ++ ["-k".toList, "--".toList] }, none) :=
  (marker_ends_flags noIP keyContext ["--key".toList, "v".toList, "a".toList]
    ["-k".toList, "--".toList]
    { cmd := keyContext.cmd, flags := [{ keyFlag with Value := some (.stringValue "v".toList) }, numFlag],
      args := ["a".toList] } rfl (by decide)).1

/-- C12, as stated, fails in three ways: a flag of `pre` whose value does not convert ends
the parse with the conversion error before `--help` is reached; a tree that declares no
`help` flag but two flags of one name panics before any token is parsed; and with
`ExitOnError` enabled on the resolved command `Parse` leaves the process with status 2 on
`ErrHelp` as on any error. -/
theorem help_not_reached :
    (Command.ExecContext noIP { cmd := countApp [] }
        ["app".toList, "--count".toList, "abc".toList, "--help".toList]).err
      = some (.syntaxErr "Atoi".toList "abc".toList)
    ∧ (Command.ExecContext noIP { cmd := clashApp } ["app".toList, "--help".toList]).err
      = some (.redefined "x".toList)
    ∧ (Command.ExecContext noIP { cmd := strictApp } ["app".toList, "--help".toList]).err
      = some (.exit .help) := by
  refine ⟨by decide, by decide, by decide⟩

/-- C12, amended. When `parse` succeeds on `pre`, which holds no token `--`, then on
`pre ++ [t] ++ post` with `t` one of `--help` and `-h` it returns `ErrHelp` and leaves
the context as `parse(pre)` leaves it: the tokens of `post` change no flag. When moreover
`ExitOnError` is not enabled on the command, `Parse` returns the same; and when the
context is the one built for the command `Find` resolves, with these residual tokens,
`ExecContext` returns nil and invokes no handler. -/
theorem help_short_circuit (ParseIP : Str → List Nat) (c : Context) (pre post : List Str)
    (c1 : Context) (t : Str) (ht : t = "--help".toList ∨ t = "-h".toList)
    (h : c.parse ParseIP pre = (c1, none)) (hmark : "--".toList ∉ pre) :
    c.parse ParseIP (pre ++ t :: post) = (c1, some .help)
    ∧ (Options.enabled c.cmd.cmd.Options ExitOnError = false →
        c.Parse ParseIP (pre ++ t :: post) = (c1, some .help))
    ∧ (∀ (root : Node) (a0 : Str) (rest : List Str) (node : Node),
        Command.Find { cmd := withHelp root.Root } ((withHelp root.Root).Name :: rest)
          = ⟨node, pre ++ t :: post, none⟩ →
        newContext node = .ok c →
        Options.enabled node.cmd.Options ExitOnError = false →
        Command.ExecContext ParseIP root (a0 :: rest) = ⟨some node, some c1, none, none⟩) := by
  have hd : dashFirst (t :: post) := by
    rcases ht with ht | ht <;> subst ht <;> simp [dashFirst]
  have hparse : c.parse ParseIP (pre ++ t :: post) = (c1, some .help) := by
    rw [parse_ext ParseIP c pre _ c1 h hmark hd, parseFrom_help ParseIP c1 t post ht]
  have hParse : Options.enabled c.cmd.cmd.Options ExitOnError = false →
      c.Parse ParseIP (pre ++ t :: post) = (c1, some .help) := by
    intro hopt
    unfold Context.Parse
    rw [hparse]
    simp [hopt]
  refine ⟨hparse, hParse, ?_⟩
  intro root a0 rest node hfind hctx hopt
  have hcmd := (newContext_cmd node c hctx).1
  have hP := hParse (by rw [hcmd]; exact hopt)
  unfold Command.ExecContext
  simp only
  have hfind1 : Command.Find
      { cmd := if root.Root.setup then root.Root
          else { root.Root with Flags := root.Root.Flags ++ [defaultFlagHelp], setup := true } }
      ((if root.Root.setup then root.Root
          else { root.Root with Flags := root.Root.Flags ++ [defaultFlagHelp], setup := true }).Name
        :: rest) = ⟨node, pre ++ t :: post, none⟩ := hfind
  rw [hfind1]
  simp only [hctx, hP]
  simp

/-- C12, amended, at the root `app` with the boolean flag `verbose`: on
`["app", "-v", "a", "--help", "--bogus"]` the flag is set, `a` is recorded, and
`ExecContext` returns nil without a handler. -/
theorem help_short_circuit_witness :
    syncContext.parse noIP (["-v".toList, "a".toList] ++ "--help".toList :: ["--bogus".toList])
      = (({ syncContext with args := ["a".toList] }).setTrue 'v', some .help)
    ∧ Command.ExecContext noIP { cmd := syncApp }
        ("app".toList :: ["-v".toList, "a".toList, "--help".toList, "--bogus".toList])
      = ⟨some { cmd := withHelp syncApp },
          some (({ syncContext with args := ["a".toList] }).setTrue 'v'), none, none⟩ :=
  have h := help_short_circuit noIP syncContext ["-v".toList, "a".toList] ["--bogus".toList]
    (({ syncContext with args := ["a".toList] }).setTrue 'v') "--help".toList (Or.inl rfl)
    rfl (by decide)
  ⟨h.1, h.2.2 { cmd := syncApp } "app".toList
    ["-v".toList, "a".toList, "--help".toList, "--bogus".toList] { cmd := withHelp syncApp }
    rfl rfl rfl⟩

/-- C13, as stated, fails for `String`: on the integer flag `num` (default 7) it returns
the rendered text `7`, not the empty string, and on a flag with a nil `Value` it panics;
`Int`, `Bool` and `IP` return their zero values there. -/
theorem string_getter_renders_any_variant :
    keyContext.String noFormat "num".toList = some "7".toList
    ∧ keyContext.String noFormat "num".toList ≠ some []
    ∧ nilContext.String noFormat "raw".toList = none
    ∧ nilContext.Int "raw".toList = 0
    ∧ nilContext.Bool "raw".toList = false
    ∧ nilContext.IP "raw".toList = [] := by
  refine ⟨by decide, by decide, by decide, by decide, by decide, by decide⟩

/-- C13, amended. When the key is absent from the context, `String` returns the empty
string, `Int` 0, `Bool` false and `IP` nil. When a flag is stored under the key, `Int`,
`Bool` and `IP` return the held value if its `Value` is of their variant and their zero
value otherwise (a nil `Value` included), and `String` returns the text the `Value`
renders, whatever its variant (for a string `Value`, the held string), provided the `Value`
is not nil. -/
theorem getters_total (FormatIP : List Nat → Str) (c : Context) (key : Str) :
    (c.lset key = none →
      c.String FormatIP key = some [] ∧ c.Int key = 0 ∧ c.Bool key = false ∧ c.IP key = [])
    ∧ (∀ f, c.lset key = some f →
        (∀ v, f.Value = some v → c.String FormatIP key = some (v.String FormatIP))
        ∧ (∀ s, f.Value = some (.stringValue s) → c.String FormatIP key = some s)
        ∧ (∀ i, f.Value = some (.intValue i) → c.Int key = i)
        ∧ ((∀ i, f.Value ≠ some (.intValue i)) → c.Int key = 0)
        ∧ (∀ b, f.Value = some (.boolValue b) → c.Bool key = b)
        ∧ ((∀ b, f.Value ≠ some (.boolValue b)) → c.Bool key = false)
        ∧ (∀ ip, f.Value = some (.ipValue ip) → c.IP key = ip)
        ∧ ((∀ ip, f.Value ≠ some (.ipValue ip)) → c.IP key = [])) := by
  refine ⟨?_, ?_⟩
  · intro h
    simp [Context.String, Context.Int, Context.Bool, Context.IP, h]
  · intro f h
    refine ⟨?_, ?_, ?_, ?_, ?_, ?_, ?_, ?_⟩
    · intro v hv; simp [Context.String, h, hv]
    · intro s hv; simp [Context.String, h, hv, Value.String]
    · intro i hv; simp [Context.Int, h, hv]
    · intro hv
      simp only [Context.Int, h]
    · intro b hv; simp [Context.Bool, h, hv]
    · intro hv
      simp only [Context.Bool, h]
    · intro ip hv; simp [Context.IP, h, hv]
    · intro hv
      simp only [Context.IP, h]

/-- C13, amended, at the flags `key` (string, empty) and `num` (integer, 7): `Int` reads
7 from `num` and 0 from `key`, `String` renders `num` as `7`, and an absent key reads as
the zero values. -/
theorem getters_total_witness :
    keyContext.Int "num".toList = 7
    ∧ keyContext.Int "key".toList = 0
    ∧ keyContext.String noFormat "num".toList = some (Itoa 7)
    ∧ (keyContext.String noFormat "nokey".toList = some [] ∧ keyContext.Int "nokey".toList = 0
        ∧ keyContext.Bool "nokey".toList = false ∧ keyContext.IP "nokey".toList = []) :=
  ⟨((getters_total noFormat keyContext "num".toList).2 numFlag (by decide)).2.2.1 7 (by decide),
    ((getters_total noFormat keyContext "key".toList).2 keyFlag (by decide)).2.2.2.1
      (fun i hi => Value.noConfusion (Option.some.inj hi)),
    ((getters_total noFormat keyContext "num".toList).2 numFlag (by decide)).1 (.intValue 7)
      (by decide),
    (getters_total noFormat keyContext "nokey".toList).1 (by decide)⟩

/-- C19. Rendering a scalar `Value` and parsing the text back is the identity: for every
integer n of the machine range, every boolean b and every string s, `Set` called with
the text `String()` renders for n, b or s returns no error and leaves an integer, boolean
or string `Value` (whatever it held) holding n, b or s. -/
theorem set_string_roundtrip (ParseIP : Str → List Nat) (FormatIP : List Nat → Str)
    (n : Int) (b : Bool) (s : Str)
    (hlo : -(2 ^ (intSize - 1) : Int) ≤ n) (hhi : n < (2 ^ (intSize - 1) : Int)) :
    (∀ m, (Value.intValue m).Set ParseIP ((Value.intValue n).String FormatIP)
        = (.intValue n, none))
    ∧ (∀ b0, (Value.boolValue b0).Set ParseIP ((Value.boolValue b).String FormatIP)
        = (.boolValue b, none))
    ∧ (∀ s0, (Value.stringValue s0).Set ParseIP ((Value.stringValue s).String FormatIP)
        = (.stringValue s, none)) := by
  refine ⟨?_, ?_, ?_⟩
  · intro m
    simp only [Value.String, Value.Set, Atoi_Itoa n hlo hhi]
  · intro b0
    cases b <;> simp [Value.String, Value.Set, FormatBool, ParseBool]
  · intro s0
    simp [Value.String, Value.Set]

/-- C19 at n = -42, b = true and s = `a b`: the hypotheses hold there. -/
theorem set_string_roundtrip_witness :
    (Value.intValue 0).Set noIP ((Value.intValue (-42)).String noFormat) = (.intValue (-42), none)
    ∧ (Value.boolValue false).Set noIP ((Value.boolValue true).String noFormat)
        = (.boolValue true, none)
    ∧ (Value.stringValue []).Set noIP ((Value.stringValue "a b".toList).String noFormat)
        = (.stringValue "a b".toList, none) :=
  have h := set_string_roundtrip noIP noFormat (-42) true "a b".toList (by decide) (by decide)
  ⟨h.1 0, h.2.1 false, h.2.2 []⟩

/-- C14. Function `newContext` fails if and only if the flags it registers for the command (all
flags of the last command of the parent chain, the persistent ones of the others) do not
have pairwise distinct long names and pairwise distinct non-zero short characters; it then
panics with `flag redefined` or `short flag is used`. When it succeeds, the context holds
exactly these flags as `add` marks them, and both indexes return, for the name and for the
non-zero short character of each of them, that very flag. The built-in `help` flag is among
the registered flags once it is injected on the root. -/
theorem newContext_fails_iff_collision (n : Node) :
    ((∃ e, newContext n = .error e) ↔
      ¬ (((selectedFlags (n.cmd :: n.parents)).map fun f => f.Name).Nodup
        ∧ (((selectedFlags (n.cmd :: n.parents)).filter fun f => f.Short ≠ Char.ofNat 0).map
            fun f => f.Short).Nodup))
    ∧ (∀ e, newContext n = .error e →
        (∃ name, e = .redefined name) ∨ (∃ ch name, e = .shortUsed ch name))
    ∧ (∀ ctx, newContext n = .ok ctx →
        ctx.flags = (selectedFlags (n.cmd :: n.parents)).map markOptional
        ∧ Indexed ctx.flags)
    ∧ (∀ (front : List Command) (r : Command), r.setup = false →
        defaultFlagHelp ∈ selectedFlags (front ++ [withHelp r])) := by
  refine ⟨?_, (newContext_distinct n).2, ?_, ?_⟩
  · constructor
    · rintro ⟨e, he⟩ ⟨hn, hs⟩
      obtain ⟨ctx, hctx⟩ := newContext_ok n hn hs
      rw [he] at hctx
      cases hctx
    · intro hnot
      cases hctx : newContext n with
      | error e => exact ⟨e, rfl⟩
      | ok ctx => exact absurd ((newContext_distinct n).1 ctx hctx) hnot
  · intro ctx hctx
    exact ⟨newContext_flags n ctx hctx, newContext_indexed n ctx hctx⟩
  · intro front r hr
    rw [selectedFlags_append]
    apply List.mem_append_right
    simp [selectedFlags, withHelp, hr]

/-- C14 at two trees: the root with two flags named `x` fails with `flag x redefined`,
and the context of `run` in the three-level tree holds its two flags, each found under
its own name. -/
theorem newContext_fails_iff_collision_witness :
    ((∃ name, Error.redefined "x".toList = .redefined name)
      ∨ (∃ ch name, Error.redefined "x".toList = .shortUsed ch name))
    ∧ (runContext.flags = (selectedFlags (runNode.cmd :: runNode.parents)).map markOptional
      ∧ Indexed runContext.flags) :=
  ⟨(newContext_fails_iff_collision { cmd := clashApp }).2.1 (.redefined "x".toList) rfl,
    (newContext_fails_iff_collision runNode).2.2.1 runContext rfl⟩

/-- C16, as stated, fails for a declared string flag whose long name and short character
are both the dash: `-k` is then the end-of-flags marker and succeeds as the last token,
and `--key` is a malformed long flag; for a declared flag with a nil `Value` the token
that follows cannot be passed to `Set`; and a last token `--key` that comes after the
marker `--` is a positional argument, while after a token that fails it is never
reached. -/
theorem dash_key_counterexample :
    dashKeyContext.lset ['-'] = some dashKeyFlag
    ∧ dashKeyContext.sset '-' = some dashKeyFlag
    ∧ (dashKeyContext.parse noIP [['-', '-']]).2 = none
    ∧ (dashKeyContext.parse noIP [['-', '-', '-']]).2 = some (.unexpectedFlag ['-', '-', '-'])
    ∧ (nilContext.parse noIP ["--raw".toList, "v".toList]).2 = some .nilValue
    ∧ observe "key".toList (keyContext.parse noIP ["--".toList, "--key".toList])
        = (some (.stringValue []), ["--key".toList], none)
    ∧ (keyContext.parse noIP ["--bogus".toList, "--key".toList]).2
        = some (.undefinedFlag "bogus".toList) := by
  refine ⟨by decide, by decide, by decide, by decide, by decide, by decide, by decide⟩

/-- C16, amended. Let `parse` succeed on `pre`, which holds no token `--`, and let the
context it leaves declare a flag that takes a value under a long name `key` the long form
can spell and a short character `k` other than `-` and `h`. When `--key` or `-k` is the
last token after `pre`, `parse` fails with "flag needs an argument" and leaves the context
as `parse(pre)` leaves it. When a token follows and the `Value` of the flag is not nil,
this one token, whatever it looks like, is passed unchanged to `Set`: the flag holds what
`Set` leaves, an error of `Set` ends the parse, and otherwise the loop goes on with the
tokens after the value. -/
theorem plain_flag_takes_next_token (ParseIP : Str → List Nat) (c : Context) (pre : List Str)
    (c1 : Context) (key : Str) (k : Char) (f : Flag)
    (h : c.parse ParseIP pre = (c1, none)) (hmark : "--".toList ∉ pre)
    (hdecl : declaresPlain c1 key k f) (hkey : usableKey key = true)
    (hk : k ≠ '-') (hh : k ≠ 'h') :
    c.parse ParseIP (pre ++ [('-' :: '-' :: key)]) = (c1, some (.needsArg key))
    ∧ c.parse ParseIP (pre ++ [['-', k]]) = (c1, some (.needsArgShort k))
    ∧ (∀ (v0 : Value) (value : Str) (post : List Str) (t : Str), f.Value = some v0 →
        (t = '-' :: '-' :: key ∨ t = ['-', k]) →
        c.parse ParseIP (pre ++ t :: value :: post) =
          match (v0.Set ParseIP value).2 with
          | some e => (c1.store key (v0.Set ParseIP value).1, some e)
          | none => parseFrom ParseIP (c1.store key (v0.Set ParseIP value).1) post) := by
  obtain ⟨hl, hs, hopt⟩ := hdecl
  have hlong := parseFrom_long_plain ParseIP c1 key f hl hopt hkey
  have hshort := parseFrom_short_plain ParseIP c1 key k f hl hs hopt hk hh
  refine ⟨?_, ?_, ?_⟩
  · rw [parse_ext ParseIP c pre _ c1 h hmark (by simp [dashFirst])]
    exact hlong.1
  · rw [parse_ext ParseIP c pre _ c1 h hmark (by simp [dashFirst])]
    exact hshort.1
  · intro v0 value post t hv ht
    rcases ht with ht | ht
    · subst ht
      rw [parse_ext ParseIP c pre _ c1 h hmark (by simp [dashFirst])]
      exact hlong.2 v0 value post hv
    · subst ht
      rw [parse_ext ParseIP c pre _ c1 h hmark (by simp [dashFirst])]
      exact hshort.2 v0 value post hv

/-- C16, amended, at the flags `key`/`k` (string) and `num`/`n` (integer) after the
positional `a`: `--num` and `-n` as last tokens fail and leave 7 in place, and `-k`
followed by `--num` stores the text `--num` in `key`. -/
theorem plain_flag_takes_next_token_witness :
    keyContext.parse noIP (["a".toList] ++ ["--num".toList])
        = ({ keyContext with args := ["a".toList] }, some (.needsArg "num".toList))
    ∧ keyContext.parse noIP (["a".toList] ++ [['-', 'n']])
        = ({ keyContext with args := ["a".toList] }, some (.needsArgShort 'n'))
    ∧ observe "key".toList
        (keyContext.parse noIP (["a".toList] ++ ['-', 'k'] :: "--num".toList :: []))
        = (some (.stringValue "--num".toList), ["a".toList], none) :=
  have hn := plain_flag_takes_next_token noIP keyContext ["a".toList]
    { keyContext with args := ["a".toList] } "num".toList 'n' numFlag rfl (by decide)
    ⟨by decide, by decide, by decide⟩ (by decide) (by decide) (by decide)
  have hkk := plain_flag_takes_next_token noIP keyContext ["a".toList]
    { keyContext with args := ["a".toList] } "key".toList 'k' keyFlag rfl (by decide)
    ⟨by decide, by decide, by decide⟩ (by decide) (by decide) (by decide)
  ⟨hn.1, hn.2.1, by
    rw [hkk.2.2 (.stringValue []) "--num".toList [] ['-', 'k'] rfl (Or.inr rfl)]
    decide⟩

/-- C18, as stated, fails for a root whose name starts with `-`: the first token, the
root's name, is kept as a flag, the cursor never leaves the command above the root, and
`Find` returns that command, which is neither the root nor one of its descendants. -/
theorem find_returns_dummy_for_dash_root :
    (Command.Find { cmd := dashRoot } ["-app".toList, "x".toList]).cmd.cmd.Name = []
    ∧ (Command.Find { cmd := dashRoot } ["-app".toList, "x".toList]).args
        = ["-app".toList, "x".toList]
    ∧ (Command.Find { cmd := dashRoot } ["-app".toList, "x".toList]).err = none
    ∧ ¬ Reach { cmd := dashRoot } (Command.Find { cmd := dashRoot } ["-app".toList, "x".toList]).cmd := by
  refine ⟨by decide, by decide, by decide, ?_⟩
  intro h
  rcases reach_root_or_child _ _ h with h1 | h1
  · have h2 := congrArg (fun n : Node => n.cmd.Name) h1
    exact absurd h2 (by decide)
  · exact h1 rfl

/-- C18, amended. For every command `c` and every argument vector of non-empty tokens
whose first token is the name of `c`, `Find` returns what the reference resolver returns
on the tokens before the first `--`, started above `c`: its final cursor and the tokens it
keeps, in order, and no error. When moreover the name of `c` does not start with `-`, the
cursor is `c` or one of its descendants. In the loop of `find` a token that is not the
name of a direct child of the cursor is kept and leaves the cursor where it is. -/
theorem find_refines_reference (c : Node) (rest : List Str)
    (hne : ∀ t ∈ c.cmd.Name :: rest, t ≠ []) :
    Command.Find c (c.cmd.Name :: rest)
      = ⟨(FindRef c (c.cmd.Name :: rest)).1, (FindRef c (c.cmd.Name :: rest)).2, none⟩
    ∧ (Command.Find c (c.cmd.Name :: rest)).err = none
    ∧ (c.cmd.Name.head? ≠ some '-' → Reach c (Command.Find c (c.cmd.Name :: rest)).cmd)
    ∧ (∀ (t : Str) (ts : List Str) (cursor : Node) (children : List Node) (kept : List Str),
        t ≠ [] → t ≠ "--".toList → (∀ k ∈ children, k.cmd.Name ≠ t) →
        findLoop (t :: ts) cursor children kept = findLoop ts cursor children (kept ++ [t])) := by
  have hfind : Command.Find c (c.cmd.Name :: rest)
      = ⟨(FindRef c (c.cmd.Name :: rest)).1, (FindRef c (c.cmd.Name :: rest)).2, none⟩ := by
    unfold Command.Find find FindRef
    rw [if_neg (by simp), findLoop_eq_ref _ _ _ _ hne]
    simp
  refine ⟨hfind, by rw [hfind], ?_, ?_⟩
  · intro hname
    rw [hfind]
    simp only
    have hm : c.cmd.Name ≠ "--".toList := fun e => hname (by rw [e]; rfl)
    have hself : [c].find? (fun k => decide (c.cmd.Name = k.cmd.Name)) = some c := by
      simp
    unfold FindRef
    rw [beforeDashes_cons, if_neg hm, resolveRef, if_neg hname]
    simp only [hself]
    exact resolveRef_reach c _ c Reach.root
  · intro t ts cursor children kept h1 h2 h3
    exact findLoop_keep t ts cursor children kept h1 h2 h3

/-- C18, amended, at the three-level tree `cloud`, `deploy`, `run`: on
`["cloud", "run", "deploy", "-x", "dep", "run", "--", "run"]` the first `run` and the prefix
`dep` are kept, and the cursor ends on `run` below `deploy`. -/
theorem find_refines_reference_witness :
    (Command.Find { cmd := cloudCmd } (cloudCmd.Name :: ["run".toList, "deploy".toList,
        "-x".toList, "dep".toList, "run".toList, "--".toList, "run".toList])).args
      = ["run".toList, "-x".toList, "dep".toList]
    ∧ Reach { cmd := cloudCmd } (Command.Find { cmd := cloudCmd } (cloudCmd.Name ::
        ["run".toList, "deploy".toList, "-x".toList, "dep".toList, "run".toList, "--".toList,
          "run".toList])).cmd :=
  have h := find_refines_reference { cmd := cloudCmd } ["run".toList, "deploy".toList,
    "-x".toList, "dep".toList, "run".toList, "--".toList, "run".toList] (by decide)
  ⟨by rw [h.1]; decide, h.2.2.1 (by decide)⟩

/-- C20. For every argument vector of non-empty tokens, `find` (and `Find`) returns without
an index out of range; for every token list, empty tokens included, `parse` performs no
out-of-range byte index or slice operation, `parseLongArgs` none on a token of two bytes
at least (parse calls it on longer ones only), `parseShortArgs` none on a token of one
byte at least, and `stripUndefinedFlagValue` none at all. -/
theorem no_out_of_range (ParseIP : Str → List Nat) (root : Node) (children : List Node)
    (args : List Str) (hne : ∀ t ∈ args, t ≠ []) :
    (find root children args).err = none
    ∧ (∀ c : Node, (Command.Find c args).err = none)
    ∧ (∀ (c : Context) (toks : List Str), (c.parse ParseIP toks).2 ≠ some .panic)
    ∧ (∀ (c : Context) (arg : Str) (rest : List Str), 2 ≤ arg.length →
        (parseLongArgs ParseIP c arg rest).err ≠ some .panic)
    ∧ (∀ (c : Context) (arg : Str) (rest : List Str), 1 ≤ arg.length →
        (parseShortArgs ParseIP c arg rest).err ≠ some .panic)
    ∧ (∀ toks : List Str, stripUndefinedFlagValue toks ≠ none) := by
  have hf : ∀ (r : Node) (ch : List Node), (find r ch args).err = none := by
    intro r ch
    unfold find
    split
    · rfl
    · rw [findLoop_eq_ref _ _ _ _ hne]
  refine ⟨hf root children, fun c => hf _ _, ?_, ?_, ?_, ?_⟩
  · intro c toks
    exact parseLoop_no_panic ParseIP _ _ _
  · intro c arg rest h
    exact parseLongArgs_no_panic ParseIP c arg rest h
  · intro c arg rest h
    exact parseShortArgs_no_panic ParseIP c arg rest h
  · intro toks
    rw [stripUndefinedFlagValue_eq]
    exact Option.some_ne_none _

/-- C20 at the tokens `["app", "-", "--k=", "-x="]`, all non-empty: `Find` returns them
without a panic, and `parse` does not panic on them, nor on an empty token. -/
theorem no_out_of_range_witness :
    (Command.Find { cmd := syncApp } ["app".toList, "-".toList, "--k=".toList, "-x=".toList]).err
      = none
    ∧ (tolerantKeyContext.parse noIP ["-".toList, "--k=".toList, "-x=".toList, []]).2
      ≠ some .panic :=
  have h := no_out_of_range noIP { cmd := dummy syncApp } [{ cmd := syncApp }]
    ["app".toList, "-".toList, "--k=".toList, "-x=".toList] (by decide)
  ⟨h.2.1 { cmd := syncApp }, h.2.2.1 tolerantKeyContext _⟩

/-- C15, as stated, fails when `sync` has a child whose name is the decimal text of n:
with a child `5`, the token `5` of `["app", "sync", "--count", "5", "x"]` moves the
resolver to that child, `x` becomes the value of `--count`, and parsing fails. -/
theorem count_value_names_child :
    Itoa 5 = "5".toList
    ∧ (Command.ExecContext noIP { cmd := countApp [{ Name := "5".toList, children := [] }] }
        ["app".toList, "sync".toList, "--count".toList, "5".toList, "x".toList]).cmd.map
          (fun node => node.cmd.Name) = some "5".toList
    ∧ (Command.ExecContext noIP { cmd := countApp [{ Name := "5".toList, children := [] }] }
        ["app".toList, "sync".toList, "--count".toList, "5".toList, "x".toList]).err
      = some (.syntaxErr "Atoi".toList "x".toList) := by
  refine ⟨by decide, by decide, by decide⟩

/-- C15, amended. For every integer n of the machine range and every token x that is not
empty, does not start with `-` and is not the name of a child of `sync`, when moreover the
decimal text of n is not the name of a child of `sync`: with the root `app` that declares
the integer flag `count` (default 0) and has the child `sync`, `ExecContext` on
`["app", "sync", "--count", <decimal n>, x]` resolves to `sync` and returns nil, and the
context it parsed into reads n for `count` and holds the positional list `[x]`. -/
theorem count_scenario (ParseIP : Str → List Nat) (kids : List Command) (n : Int) (x : Str)
    (hlo : -(2 ^ (intSize - 1) : Int) ≤ n) (hhi : n < (2 ^ (intSize - 1) : Int))
    (hx : x ≠ []) (hxd : x.head? ≠ some '-') (hxk : ∀ k ∈ kids, k.Name ≠ x)
    (hnk : ∀ k ∈ kids, k.Name ≠ Itoa n) :
    ∃ ctx : Context,
      Command.ExecContext ParseIP { cmd := countApp kids }
          ["app".toList, "sync".toList, "--count".toList, Itoa n, x]
        = ⟨some (syncNode kids), some ctx, none, none⟩
      ∧ ctx.Int "count".toList = n ∧ ctx.args = [x] := by
  have hkids : ∀ (t : Str), (∀ k ∈ kids, k.Name ≠ t) →
      ∀ k ∈ (syncNode kids).children, k.cmd.Name ≠ t := by
    intro t ht k hk
    simp only [Node.children, List.mem_map] at hk
    obtain ⟨ch, hch, rfl⟩ := hk
    exact ht ch hch
  have hxm : x ≠ "--".toList := fun e => hxd (by rw [e]; rfl)
  have hfind : Command.Find { cmd := withHelp (Node.Root { cmd := countApp kids }) }
      ((withHelp (Node.Root { cmd := countApp kids })).Name
        :: ["sync".toList, "--count".toList, Itoa n, x])
      = ⟨syncNode kids, ["--count".toList, Itoa n, x], none⟩ := by
    show findLoop ("app".toList :: ["sync".toList, "--count".toList, Itoa n, x])
        { cmd := dummy (withHelp (countApp kids)) } [{ cmd := withHelp (countApp kids) }] []
      = ⟨syncNode kids, ["--count".toList, Itoa n, x], none⟩
    rw [findLoop_descend "app".toList _ { cmd := dummy (withHelp (countApp kids)) }
      { cmd := withHelp (countApp kids) } [{ cmd := withHelp (countApp kids) }] []
      (by decide) (by decide) rfl]
    rw [findLoop_descend "sync".toList _ { cmd := withHelp (countApp kids) } (syncNode kids)
      (Node.children { cmd := withHelp (countApp kids) }) [] (by decide) (by decide) rfl]
    rw [findLoop_dash "--count".toList _ _ _ _ (by decide) (by decide)]
    have hn : findLoop (Itoa n :: [x]) (syncNode kids) (syncNode kids).children
        ([] ++ ["--count".toList])
        = findLoop [x] (syncNode kids) (syncNode kids).children
            ([] ++ ["--count".toList] ++ [Itoa n]) := by
      by_cases hd : (Itoa n).head? = some '-'
      · exact findLoop_dash _ _ _ _ _ hd (Itoa_shape n).2
      · exact findLoop_keep _ _ _ _ _ (Itoa_shape n).1 (Itoa_shape n).2 (hkids _ hnk)
    rw [hn, findLoop_keep x [] _ _ _ hx hxm (hkids _ hxk)]
    rfl
  have hctx : newContext (syncNode kids) = .ok (countContext kids) := rfl
  have hl : (countContext kids).lset "count".toList
      = some { Name := "count".toList, Value := some (.intValue 0) } := rfl
  have hparse : (countContext kids).Parse ParseIP ["--count".toList, Itoa n, x]
      = ({ (countContext kids).store "count".toList (.intValue n) with args := [x] }, none) := by
    have hp : (countContext kids).parse ParseIP ["--count".toList, Itoa n, x]
        = ({ (countContext kids).store "count".toList (.intValue n) with args := [x] }, none) := by
      show parseFrom ParseIP { countContext kids with args := [] }
          (('-' :: '-' :: "count".toList) :: Itoa n :: [x]) = _
      rw [(parseFrom_long_plain ParseIP { countContext kids with args := [] } "count".toList _
        hl rfl (by decide)).2 (.intValue 0) (Itoa n) [x] rfl]
      simp only [Value.Set, Atoi_Itoa n hlo hhi]
      rw [parseFrom_positional ParseIP _ x [] (by simp [isPositional, hxd])]
      rfl
    unfold Context.Parse
    rw [hp]
  refine ⟨_, ExecContext_runs ParseIP { cmd := countApp kids } "app".toList _ _ _ _ _ hfind hctx
    hparse, ?_, rfl⟩
  simp [Context.Int, Context.lset, Context.store, countContext, modifyFirst, hasName]

/-- C15, amended, at n = 5 and x = `x`, `sync` having the children `pull` and `push`: the
hypotheses hold there. -/
theorem count_scenario_witness :
    ∃ ctx : Context,
      Command.ExecContext noIP
          { cmd := countApp [{ Name := "pull".toList, children := [] },
                             { Name := "push".toList, children := [] }] }
          ["app".toList, "sync".toList, "--count".toList, Itoa 5, "x".toList]
        = ⟨some (syncNode [{ Name := "pull".toList, children := [] },
                            { Name := "push".toList, children := [] }]), some ctx, none, none⟩
      ∧ ctx.Int "count".toList = 5 ∧ ctx.args = ["x".toList] :=
  count_scenario noIP [{ Name := "pull".toList, children := [] },
      { Name := "push".toList, children := [] }] 5 "x".toList (by decide) (by decide)
    (by decide) (by decide) (by decide) (by decide)

end Cli
